import Mathlib

/-!
# Verification of the SwitchMergeTool classification and grouping engine

Shallow embedding of the file classification / grouping engine of
`switch_rom_merger.py` (repository `zb2947244682/SwitchMergeTool`).

The embedding works over `List Char` wherever the Python code works over
`str`, with thin `String` wrappers keeping the source's function names.
File system metadata is modelled as a snapshot: each scanned file carries
its relative path parts, and an optional byte size (`none` models a file
whose `stat()` call raises, as a permission error would).

Python `dict`s (which preserve insertion order) are modelled as
association lists with an update-or-append write (`setA`).  Python
exceptions are modelled with `Except Unit`: the per-file scan loop of
`scan_directory` catches exceptions (`processFile` keeps the partially
updated state), while the directory-merge phase does not (so
`scanDirectory` itself returns `Except`).

`title_id_map` and `dir_files` in the source are write-only / log-only
and do not influence the returned grouping; they are omitted.
-/

namespace SRM

/-! ## Generic list utilities -/

/-- Substring test: `hasSubList sub l` is Python's `sub in l`. -/
def hasSubList (sub : List Char) : List Char → Bool
  | [] => sub.isEmpty
  | c :: t => sub.isPrefixOf (c :: t) || hasSubList sub t

/-- ASCII lower-casing of a character list (Python `str.lower` on the
characters appearing in this code base). -/
def lowerL (l : List Char) : List Char := l.map Char.toLower

/-- Association-list lookup (Python `d[k]` / `k in d`). -/
def lookupA {α : Type} : List (String × α) → String → Option α
  | [], _ => none
  | (k', v) :: t, k => if k' = k then some v else lookupA t k

/-- Association-list write: update in place if the key exists (keeping its
position, as Python dicts do), else append. -/
def setA {α : Type} : List (String × α) → String → α → List (String × α)
  | [], k, v => [(k, v)]
  | (k', v') :: t, k, v =>
    if k' = k then (k, v) :: t else (k', v') :: setA t k v

/-- `d.setdefault(k, []).append(t)`. -/
def pushToKey (m : List (String × List String)) (k t : String) :
    List (String × List String) :=
  setA m k (((lookupA m k).getD []) ++ [t])

/-! ## Identifier extraction (`extract_title_id`, lines 115-127)

`re.search` is embedded positionally: both patterns are fixed-width, so
the leftmost match is the first position at which the pattern matches. -/

/-- A hexadecimal digit, as matched by `[0-9A-Fa-f]`. -/
def isHexDig (c : Char) : Bool :=
  ('0' ≤ c && c ≤ '9') || ('a' ≤ c && c ≤ 'f') || ('A' ≤ c && c ≤ 'F')

/-- Split off a run of exactly 16 hex digits, if the list starts with one. -/
def hexRun16 (l : List Char) : Option (List Char × List Char) :=
  let run := l.take 16
  if run.length == 16 && run.all isHexDig then some (run, l.drop 16) else none

/-- Match of `\[([0-9A-Fa-f]{16})\]` anchored at the head of the list. -/
def bracketHeadMatch (l : List Char) : Option (List Char) :=
  match l with
  | '[' :: t =>
    match hexRun16 t with
    | some (run, rest) => if rest.head? == some ']' then some run else none
    | none => none
  | _ => none

/-- Leftmost match of the bracketed pattern. -/
def findBracketed : List Char → Option (List Char)
  | [] => none
  | c :: t =>
    match bracketHeadMatch (c :: t) with
    | some r => some r
    | none => findBracketed t

/-- Match of `(?<!\[)([0-9A-Fa-f]{16})(?!\])` anchored at the head; `prev`
is the character just before the current position (`none` at the start). -/
def unbrHeadMatch (prev : Option Char) (l : List Char) : Option (List Char) :=
  if prev == some '[' then none
  else
    match hexRun16 l with
    | some (run, rest) => if rest.head? == some ']' then none else some run
    | none => none

/-- Leftmost match of the unbracketed pattern. -/
def findUnbracketed (prev : Option Char) : List Char → Option (List Char)
  | [] => none
  | c :: t =>
    match unbrHeadMatch prev (c :: t) with
    | some r => some r
    | none => findUnbracketed (some c) t

/-- `extract_title_id` on a character list: try the bracketed pattern,
then the unbracketed one; upper-case the match. -/
def extractTid (l : List Char) : Option (List Char) :=
  match findBracketed l with
  | some run => some (run.map Char.toUpper)
  | none =>
    match findUnbracketed none l with
    | some run => some (run.map Char.toUpper)
    | none => none

/-- `extract_title_id(filename)` (lines 115-127). -/
def extract_title_id (s : String) : Option String :=
  (extractTid s.data).map String.mk

/-! ## Base id and classification (lines 129-177) -/

/-- `extract_base_title_id(title_id)` (lines 129-139): identity unless the
id is exactly 16 characters, in which case first 13 characters + `"000"`. -/
def extract_base_title_id (tid : String) : String :=
  if tid = "" || tid.length ≠ 16 then tid
  else String.mk (tid.data.take 13 ++ "000".data)

/-- `title_id[13:15] == '00' and title_id[15] != '0'` (line 154), for a
16-character id. -/
def dlcTail (tid : List Char) : Bool :=
  match tid.drop 13 with
  | [a, b, c] => a == '0' && b == '0' && !(c == '0')
  | _ => false

/-- `title_id[13:] == '800'` (line 174), for a 16-character id. -/
def updTail (tid : List Char) : Bool := tid.drop 13 == "800".data

/-- `is_dlc_file(file_path)` (lines 141-157); `path` is `str(file_path)`,
`name` is `file_path.name`. -/
def is_dlc_file (path name : String) : Bool :=
  let fileStr := lowerL path.data
  let fname := lowerL name.data
  hasSubList "dlc".data fname || hasSubList "dlc".data fileStr ||
    (match extractTid fileStr with
     | some tid => tid.length == 16 && dlcTail tid
     | none => false)

/-- The update keyword set of lines 165-167 (all tested on the lower-cased
file name). -/
def updateKeywords : List (List Char) :=
  ["upd".data, "update".data, "更新".data, "patch".data, "补丁".data,
   "v1.".data, "v2.".data]

/-- `is_update_file(file_path)` (lines 159-177). -/
def is_update_file (path name : String) : Bool :=
  let fileStr := lowerL path.data
  let fname := lowerL name.data
  updateKeywords.any (fun kw => hasSubList kw fname) ||
    (match extractTid fileStr with
     | some tid => tid.length == 16 && updTail tid
     | none => false)

/-- The classification a file receives in `scan_directory` lines 269-277:
the DLC test runs first, then the update test, else base. -/
inductive RomKind | base | update | dlc
deriving DecidableEq

/-- `if is_dlc: ... elif is_update: ... else: ...` (lines 270-275). -/
def classifyFile (path name : String) : RomKind :=
  if is_dlc_file path name then .dlc
  else if is_update_file path name then .update
  else .base

/-! ## Name stripping (lines 238-242)

`re.sub(r'\[.*?\]', '', ...)`, `re.sub(r'\(.*?\)', '', ...)`,
`re.sub(r'v\d+(\.\d+)*', '', ...)`, `str.replace`, `str.strip('_.- ')`.
The recursions consume at least one character per step, so running them
on `l.length` fuel is exact. -/

/-- Index of the first `close` character, scanning no further than a
newline (regex `.` does not match `\n`). -/
def closeIdx (close : Char) : List Char → Option Nat
  | [] => none
  | c :: t =>
    if c = close then some 0
    else if c = '\n' then none
    else (closeIdx close t).map (· + 1)

/-- Fueled worker for `re.sub('<open>.*?<close>', '', l)`. -/
def stripDelimGo (opn close : Char) : Nat → List Char → List Char
  | 0, l => l
  | _ + 1, [] => []
  | fuel + 1, c :: t =>
    if c = opn then
      match closeIdx close t with
      | some i => stripDelimGo opn close fuel (t.drop (i + 1))
      | none => c :: stripDelimGo opn close fuel t
    else c :: stripDelimGo opn close fuel t

/-- `re.sub('<open>.*?<close>', '', l)` for a fixed delimiter pair. -/
def stripDelim (opn close : Char) (l : List Char) : List Char :=
  stripDelimGo opn close l.length l

/-- Length of the leading digit run. -/
def countDigits (l : List Char) : Nat := (l.takeWhile Char.isDigit).length

/-- Fueled worker consuming `(\.\d+)*` greedily. -/
def verTailGo : Nat → List Char → List Char
  | 0, l => l
  | fuel + 1, l =>
    match l with
    | '.' :: t =>
      let n := countDigits t
      if n > 0 then verTailGo fuel (t.drop n) else l
    | _ => l

/-- Consume `(\.\d+)*` greedily, returning the remainder. -/
def verTail (l : List Char) : List Char := verTailGo l.length l

/-- Fueled worker for `re.sub(r'v\d+(\.\d+)*', '', l)`. -/
def stripVersionsGo : Nat → List Char → List Char
  | 0, l => l
  | _ + 1, [] => []
  | fuel + 1, c :: t =>
    if c = 'v' then
      let n := countDigits t
      if n > 0 then stripVersionsGo fuel (verTail (t.drop n))
      else c :: stripVersionsGo fuel t
    else c :: stripVersionsGo fuel t

/-- `re.sub(r'v\d+(\.\d+)*', '', l)` (line 240). -/
def stripVersions (l : List Char) : List Char := stripVersionsGo l.length l

/-- Fueled worker for `str.replace(pat, '')`. -/
def replaceAllGo (pat : List Char) : Nat → List Char → List Char
  | 0, l => l
  | _ + 1, [] => []
  | fuel + 1, c :: t =>
    if !pat.isEmpty && pat.isPrefixOf (c :: t) then
      replaceAllGo pat fuel ((c :: t).drop pat.length)
    else c :: replaceAllGo pat fuel t

/-- `l.replace(pat, '')` (line 241); replacing the empty pattern by the
empty string is the identity, as in Python. -/
def replaceAllL (l pat : List Char) : List Char := replaceAllGo pat l.length l

/-- Membership in `'_.- '` (the argument of `str.strip` on line 242). -/
def sepChar (c : Char) : Bool := c = '_' || c = '.' || c = '-' || c = ' '

/-- `l.strip('_.- ')` (line 242). -/
def stripEdges (l : List Char) : List Char :=
  ((l.dropWhile sepChar).reverse.dropWhile sepChar).reverse

/-- The filename-derived candidate name of lines 238-242. -/
def stripNameOf (fname tid : List Char) : List Char :=
  stripEdges (replaceAllL (stripVersions (stripDelim '(' ')' (stripDelim '[' ']' fname))) tid)

/-- The display name computed on lines 230-246 for a file with an id:
the parent directory when it is nonempty and differs from the id, else
the stripped filename; a fallback `Game_<id>` when shorter than 2. -/
def gameNameOf (pdir fname : String) (tid : List Char) : String :=
  let cand :=
    if pdir ≠ "" && pdir ≠ String.mk tid then pdir.data
    else stripNameOf fname.data tid
  if cand.length < 2 then String.mk ("Game_".data ++ tid) else String.mk cand

/-! ## Version extraction (`_extract_version`, lines 643-648) and the
update selection of `merge_files` (lines 514-518) -/

/-- A scanned file: path parts relative to the scan root, byte size
(`none` when `stat()` raises), and modification time.  The source never
reads the modification time; the field is carried to make that visible. -/
structure RomFile where
  relParts : List String
  size : Option Nat
  mtime : Nat
deriving DecidableEq

/-- `file_path.name`. -/
def fileName (f : RomFile) : String := (f.relParts.getLast?).getD ""

/-- Join relative parts with `/`. -/
def joinParts : List String → List Char
  | [] => []
  | [p] => p.data
  | p :: rest => p.data ++ '/' :: joinParts rest

/-- `str(file_path)`: the scan root joined with the relative parts. -/
def filePath (root : String) (f : RomFile) : String :=
  String.mk (root.data ++ '/' :: joinParts f.relParts)

/-- `rel_path.parts[0] if len(rel_path.parts) > 0 else ""` (line 225). -/
def parentDirOf (f : RomFile) : String := (f.relParts.head?).getD ""

/-- `file_path.stat().st_size`, raising when the size is unavailable. -/
def sizeE (f : RomFile) : Except Unit Nat :=
  match f.size with
  | some n => .ok n
  | none => .error ()

/-- Index of the last occurrence of a character. -/
def lastIdxOf (ch : Char) : List Char → Option Nat
  | [] => none
  | c :: t =>
    match lastIdxOf ch t with
    | some i => some (i + 1)
    | none => if c = ch then some 0 else none

/-- `pathlib.PurePath.stem`: the name without its final suffix (the suffix
exists when the last dot is neither first nor last). -/
def stemOf (name : String) : String :=
  match lastIdxOf '.' name.data with
  | some i =>
    if 0 < i ∧ i + 1 < name.data.length then String.mk (name.data.take i)
    else name
  | none => name

/-- `(\.\d+)?` at the head: the matched text, if any. -/
def verOptTail (l : List Char) : Option (List Char) :=
  match l with
  | '.' :: t =>
    let n := countDigits t
    if n > 0 then some ('.' :: t.take n) else none
  | _ => none

/-- Match of `v?(\d+\.\d+(\.\d+)?)` anchored at the head of the list,
returning group 1. -/
def matchVerAt (l : List Char) : Option (List Char) :=
  let l1 := if l.head? = some 'v' then l.tail else l
  let d1 := countDigits l1
  if d1 = 0 then none
  else
    match l1.drop d1 with
    | '.' :: t =>
      let d2 := countDigits t
      if d2 = 0 then none
      else
        let part3 := (verOptTail (t.drop d2)).getD []
        some (l1.take d1 ++ '.' :: t.take d2 ++ part3)
    | _ => none

/-- Leftmost match of `v?(\d+\.\d+(\.\d+)?)`. -/
def findVer : List Char → Option (List Char)
  | [] => none
  | c :: t =>
    match matchVerAt (c :: t) with
    | some r => some r
    | none => findVer t

/-- `_extract_version(file_path)` (lines 643-648): search the version
pattern in the stem of the file name. -/
def extract_version (f : RomFile) : Option String :=
  (findVer (stemOf (fileName f)).data).map String.mk

/-- The update selection of `merge_files` lines 514-518:
`max(updates, key=lambda f: f.stat().st_size)` on a non-empty list (first
maximal element wins on ties), `none` when there are no updates.  The
version string extracted later (line 532) is used only for the output
file name, never for this choice.  One comparison step of that `max`:
replace the current best exactly when the new key is strictly larger. -/
def selectStep (acc : RomFile × Nat) (w : RomFile) :
    Except Unit (RomFile × Nat) := do
  let kw ← sizeE w
  if kw > acc.2 then pure (w, kw) else pure acc

/-- `max(updates, key=lambda f: f.stat().st_size)` of lines 514-518 on a
non-empty list (first maximal element wins on ties), `none` when there
are no updates. -/
def selectLatestUpdate (updates : List RomFile) : Except Unit (Option RomFile) :=
  match updates with
  | [] => .ok none
  | u :: rest => do
    let k0 ← sizeE u
    let best ← rest.foldlM selectStep (u, k0)
    .ok (some best.1)

/-! ## Spec-side definitions (used only to state refutations) -/

/-- Split a character list at every `'.'`. -/
def splitDots : List Char → List (List Char)
  | [] => [[]]
  | c :: t =>
    if c = '.' then [] :: splitDots t
    else
      match splitDots t with
      | h :: r => (c :: h) :: r
      | [] => [[c]]

/-- Value of a digit run, `0` for anything else. -/
def numVal (l : List Char) : Nat :=
  if !l.isEmpty && l.all Char.isDigit then
    l.foldl (fun a c => a * 10 + (c.toNat - 48)) 0
  else 0

/-- Modelled from the spec: the version 3-tuple `(major, minor, patch)`
obtained from a dotted version string, absent components defaulting to 0
(spec section 4.5).  The source never computes this. -/
def specVersionTuple (v : String) : Nat × Nat × Nat :=
  match (splitDots v.data).map numVal with
  | [] => (0, 0, 0)
  | [a] => (a, 0, 0)
  | [a, b] => (a, b, 0)
  | a :: b :: c :: _ => (a, b, c)

/-- Strict lexicographic order on version 3-tuples, as the spec's
"highest version" comparison. -/
def specTupleLt (a b : Nat × Nat × Nat) : Prop :=
  a.1 < b.1 ∨ (a.1 = b.1 ∧ (a.2.1 < b.2.1 ∨ (a.2.1 = b.2.1 ∧ a.2.2 < b.2.2)))

instance (a b : Nat × Nat × Nat) : Decidable (specTupleLt a b) := by
  unfold specTupleLt; infer_instance

/-- Modelled from the spec: the normalized display name of Phase 4
(section 4.4) — lower-cased with every non-alphanumeric character
stripped.  The source has no such pass. -/
def specNormalizeName (s : String) : String :=
  String.mk ((lowerL s.data).filter Char.isAlphanum)

/-! ## The grouping engine (`scan_directory`, lines 179-437) -/

/-- One entry of `raw_files` (lines 260-267 / 289-296). -/
structure RawEntry where
  base : Option RomFile
  updates : List RomFile
  dlcs : List RomFile
  name : String
  baseId : String
  dir : String
deriving DecidableEq

/-- One entry of `game_files` (lines 331-336 / 353-358 / 396-401). -/
structure GameGroup where
  base : Option RomFile
  updates : List RomFile
  dlcs : List RomFile
  name : String
deriving DecidableEq

/-- The mutable state of the per-file scan loop: `raw_files` and
`base_id_map`. -/
structure ScanSt where
  raw : List (String × RawEntry)
  baseIdMap : List (String × List String)
deriving DecidableEq

/-- A fresh `raw_files` entry (lines 260-267 / 289-296). -/
def freshEntry (gname bid pdir : String) : RawEntry :=
  ⟨none, [], [], gname, bid, pdir⟩

/-- Lines 253-256: `base_id_map.setdefault(bid, [])` followed by an
append of `tid` when not already present. -/
def addToBaseIdMap (m : List (String × List String)) (bid tid : String) :
    List (String × List String) :=
  let cur := (lookupA m bid).getD []
  if tid ∈ cur then m else setA m bid (cur ++ [tid])

/-- The classification step of lines 269-277 (and 298-306), recording the
file into its entry; the base branch compares `stat()` sizes and can
raise, but only when the entry already has a base (line 276 is
short-circuited otherwise). -/
def classifyEntry (e : RawEntry) (f : RomFile) (isD isU : Bool) :
    Except Unit RawEntry :=
  if isD then .ok { e with dlcs := e.dlcs ++ [f] }
  else if isU then .ok { e with updates := e.updates ++ [f] }
  else
    match e.base with
    | none => .ok { e with base := some f }
    | some b => do
      let fs ← sizeE f
      let bs ← sizeE b
      if fs > bs then .ok { e with base := some f } else .ok e

/-- The body of the per-file loop (lines 211-310), one file at a time.
The second component is `true` when the body raised: the mutations made
before the raising point (name maps, entry creation) are kept, matching
the `try`/`except` at lines 211-313. -/
def fileBody (root : String) (st : ScanSt) (f : RomFile) : ScanSt × Bool :=
  let fileStr := filePath root f
  let fname := fileName f
  let tid? := extract_title_id fileStr
  let isD := is_dlc_file fileStr fname
  let isU := is_update_file fileStr fname
  let pdir := parentDirOf f
  match tid? with
  | some tid =>
    let gname := gameNameOf pdir fname tid.data
    let bid := extract_base_title_id tid
    let bm := addToBaseIdMap st.baseIdMap bid tid
    let e0 := (lookupA st.raw tid).getD (freshEntry gname bid pdir)
    let raw0 := setA st.raw tid e0
    match classifyEntry e0 f isD isU with
    | .ok e1 => (⟨setA raw0 tid e1, bm⟩, false)
    | .error _ => (⟨raw0, bm⟩, true)
  | none =>
    if pdir ≠ "" then
      let fakeId := "DIR_" ++ pdir
      let e0 := (lookupA st.raw fakeId).getD (freshEntry pdir fakeId pdir)
      let raw0 := setA st.raw fakeId e0
      match classifyEntry e0 f isD isU with
      | .ok e1 =>
        let bm :=
          if (lookupA st.baseIdMap fakeId).isSome then st.baseIdMap
          else setA st.baseIdMap fakeId [fakeId]
        (⟨setA raw0 fakeId e1, bm⟩, false)
      | .error _ => (⟨raw0, st.baseIdMap⟩, true)
    else (st, false)

/-- One loop iteration with its exception caught (the `except` clause at
line 312 only logs). -/
def processFile (root : String) (st : ScanSt) (f : RomFile) : ScanSt :=
  (fileBody root st f).1

/-- The whole per-file loop over the scanned files in order. -/
def scanFold (root : String) (files : List RomFile) : ScanSt :=
  files.foldl (processFile root) ⟨[], []⟩

/-- `raw_files[t]`; the default is irrelevant (every looked-up id has an
entry) but keeps the function total. -/
def entryOf (raw : List (String × RawEntry)) (t : String) : RawEntry :=
  (lookupA raw t).getD (freshEntry "" "" "")

/-- `dir_groups` (lines 316-322): directory name → ids of the entries
whose recorded directory it is, skipping empty and dot-leading names. -/
def dirGroups (raw : List (String × RawEntry)) : List (String × List String) :=
  raw.foldl
    (fun acc kv =>
      if kv.2.dir ≠ "" && !(".".data.isPrefixOf kv.2.dir.data) then
        pushToKey acc kv.2.dir kv.1
      else acc)
    []

/-- The base update of lines 340-345: when the related id owns a base
file, keep the larger of it and the group's current base by `stat()`
size (the comparison is outside any `try` and raises out of
`scan_directory`); the `not game_files[...]['base']` short-circuit avoids
both `stat()` calls when the group has no base yet. -/
def mergeBaseE (g : GameGroup) (b? : Option RomFile) :
    Except Unit GameGroup :=
  match b?, g.base with
  | some b, none => .ok { g with base := some b }
  | some b, some gb => do
    let bs ← sizeE b
    let gbs ← sizeE gb
    if bs > gbs then .ok { g with base := some b } else .ok g
  | none, _ => .ok g

/-- One step of the merge fold of lines 339-349 for one related id:
update the directory group's base, then pool the id's updates and DLCs
(lines 348-349). -/
def mergeDirStep (raw : List (String × RawEntry)) (g : GameGroup)
    (t : String) : Except Unit GameGroup :=
  match mergeBaseE g (entryOf raw t).base with
  | .ok g1 => .ok { g1 with updates := g1.updates ++ (entryOf raw t).updates,
                            dlcs := g1.dlcs ++ (entryOf raw t).dlcs }
  | .error er => .error er

/-- The merge fold of lines 339-349: pool every related id's files into
the fresh directory group. -/
def mergeDirTids (raw : List (String × RawEntry)) (dirName : String)
    (tids : List String) : Except Unit GameGroup :=
  tids.foldlM (mergeDirStep raw) ⟨none, [], [], dirName⟩

/-- One step of the directory pass for one `dir_groups` item (lines
325-358): directories with several ids get a merged `DIR_` group,
single-id directories copy the entry.  An empty id list would be
`title_ids[0]` raising `IndexError` in the source (it cannot arise from
`dirGroups`). -/
def dirStep (raw : List (String × RawEntry))
    (gf : List (String × GameGroup)) (kv : String × List String) :
    Except Unit (List (String × GameGroup)) := do
  match kv.2 with
  | [] => .error ()
  | [t] =>
    let e := entryOf raw t
    pure (setA gf t ⟨e.base, e.updates, e.dlcs, e.name⟩)
  | t1 :: t2 :: rest => do
    let g ← mergeDirTids raw kv.1 (t1 :: t2 :: rest)
    pure (setA gf ("DIR_" ++ kv.1) g)

/-- The directory pass (lines 324-358). -/
def dirPass (raw : List (String × RawEntry)) :
    Except Unit (List (String × GameGroup)) :=
  (dirGroups raw).foldlM (dirStep raw) []

/-- Main-game selection of lines 366-391: prefer an id ending in `000`
that has a base, else the first id with a base, else the first id (with
no base file). -/
def pickMainId (raw : List (String × RawEntry)) (rids : List String) :
    Option (String × Option RomFile) :=
  match rids.find? (fun t => "000".data.isSuffixOf t.data && (entryOf raw t).base.isSome) with
  | some t => some (t, (entryOf raw t).base)
  | none =>
    match rids.find? (fun t => (entryOf raw t).base.isSome) with
    | some t => some (t, (entryOf raw t).base)
    | none =>
      match rids with
      | t :: _ => some (t, none)
      | [] => none

/-- One step of the pooling fold of lines 404-411 for one related id:
union the id's updates and DLCs, filling the base from the first id
owning one if still empty. -/
def poolStep (raw : List (String × RawEntry)) (g : GameGroup)
    (t : String) : GameGroup :=
  let e := entryOf raw t
  let g1 := { g with updates := g.updates ++ e.updates,
                     dlcs := g.dlcs ++ e.dlcs }
  if g1.base.isNone && e.base.isSome then { g1 with base := e.base }
  else g1

/-- The pooling fold of lines 404-411. -/
def poolRelated (raw : List (String × RawEntry)) (g0 : GameGroup)
    (rids : List String) : GameGroup :=
  rids.foldl (poolStep raw) g0

/-- One step of the base-id pass for one `base_id_map` item (lines
361-411): skipped when named `DIR_*` or already a `game_files` key, else
a pooled group is inserted. -/
def baseStep (raw : List (String × RawEntry))
    (gf : List (String × GameGroup)) (kv : String × List String) :
    List (String × GameGroup) :=
  if "DIR_".data.isPrefixOf kv.1.data || (lookupA gf kv.1).isSome then gf
  else
    match pickMainId raw kv.2 with
    | none => gf
    | some (mid, bf) =>
      let nm := (entryOf raw mid).name
      setA gf kv.1 (poolRelated raw ⟨bf, [], [], nm⟩ kv.2)

/-- The base-id pass (lines 360-411). -/
def basePass (raw : List (String × RawEntry))
    (bm : List (String × List String))
    (gf0 : List (String × GameGroup)) : List (String × GameGroup) :=
  bm.foldl (baseStep raw) gf0

/-- `scan_directory(directory)` (lines 179-437) over a metadata snapshot:
the per-file loop, the directory pass and the base-id pass, in order.
Only the directory pass can raise (its `stat()` comparisons are not
inside a `try`). -/
def scanDirectory (root : String) (files : List RomFile) :
    Except Unit (List (String × GameGroup)) :=
  let st := scanFold root files
  match dirPass st.raw with
  | .ok gf => .ok (basePass st.raw st.baseIdMap gf)
  | .error e => .error e

/-! ## Derived views used by the statements and proofs -/

/-- All files recorded in a `raw_files` entry. -/
def storedOf (e : RawEntry) : List RomFile :=
  e.base.toList ++ e.updates ++ e.dlcs

/-- All files recorded anywhere in `raw_files`. -/
def storedFiles (raw : List (String × RawEntry)) : List RomFile :=
  (raw.map (fun kv => storedOf kv.2)).flatten

/-- All files recorded in a `game_files` group. -/
def groupFiles (g : GameGroup) : List RomFile :=
  g.base.toList ++ g.updates ++ g.dlcs

/-- Occurrences of the path `p` among an entry's DLC list. -/
def cntEntry (e : RawEntry) (p : List String) : Nat :=
  (e.dlcs.map RomFile.relParts).count p

/-- Occurrences of the path `p` among all DLC lists of `raw_files`. -/
def dlcCount (raw : List (String × RawEntry)) (p : List String) : Nat :=
  (raw.map (fun kv => cntEntry kv.2 p)).sum

/-- Remove the first entry with the given key. -/
def eraseKey {α : Type} : List (String × α) → String → List (String × α)
  | [], _ => []
  | (k', v') :: t, k => if k' = k then t else (k', v') :: eraseKey t k

/-! ## Relational view of the identifier patterns (for C6)

`BracketedSplit l pre run post` says that the bracketed pattern
`\[([0-9A-Fa-f]{16})\]` matches in `l` at offset `pre.length` with group
`run`; `UnbrSplit` likewise for
`(?<!\[)([0-9A-Fa-f]{16})(?!\])` (no `[` just before the run, no `]`
just after it). -/

def BracketedSplit (l pre run post : List Char) : Prop :=
  l = pre ++ '[' :: (run ++ ']' :: post) ∧ run.length = 16 ∧
    run.all isHexDig = true

/-- The character immediately before the match position: the last
character of `pre` if any, else the virtual predecessor `prev`. -/
def prevCharOf (prev : Option Char) (pre : List Char) : Option Char :=
  match pre.getLast? with
  | some c => some c
  | none => prev

/-- The unbracketed pattern with an explicit virtual predecessor
character `prev` for the position just before `pre` (used to thread the
look-behind through the scan). -/
def UnbrSplitP (prev : Option Char) (l pre run post : List Char) : Prop :=
  l = pre ++ run ++ post ∧ run.length = 16 ∧ run.all isHexDig = true ∧
    prevCharOf prev pre ≠ some '[' ∧ post.head? ≠ some ']'

/-- The unbracketed pattern as matched by `re.search` from the start of
the string. -/
def UnbrSplit (l pre run post : List Char) : Prop :=
  l = pre ++ run ++ post ∧ run.length = 16 ∧ run.all isHexDig = true ∧
    pre.getLast? ≠ some '[' ∧ post.head? ≠ some ']'

/-! ## Concrete inputs used in refutations and witnesses -/

/-- Update with version `1.2.0` and the smallest size. -/
def c1u1 : RomFile := ⟨["G", "game_v1.2.0_a.nsp"], some 10, 0⟩
/-- Update with version `1.2.0` and the middle size. -/
def c1u2 : RomFile := ⟨["G", "game_v1.2.0_b.nsp"], some 20, 3⟩
/-- Update with version `1.1.9` and the largest size. -/
def c1u3 : RomFile := ⟨["G", "game_v1.1.9.nsp"], some 30, 5⟩

/-- Base file in directory `Foo`. -/
def c2fa : RomFile := ⟨["Foo", "alpha[0111111111111000].nsp"], some 5, 0⟩
/-- Base file in directory `foo!` (same normalized name as `Foo`). -/
def c2fb : RomFile := ⟨["foo!", "beta[0122222222222000].nsp"], some 6, 0⟩
/-- The grouping the engine returns for `[c2fa, c2fb]`. -/
def c2out : List (String × GameGroup) :=
  [("0111111111111000", ⟨some c2fa, [], [], "Foo"⟩),
   ("0122222222222000", ⟨some c2fb, [], [], "foo!"⟩)]

/-- Base of title `0100ABCDEF000000` inside directory `GameX`. -/
def c3x1 : RomFile := ⟨["GameX", "GameX[0100ABCDEF000000].xci"], some 500, 0⟩
/-- Update of title `0100ABCDEF000800` inside the same directory. -/
def c3x2 : RomFile := ⟨["GameX", "GameX_upd[0100ABCDEF000800].nsp"], some 80, 0⟩
/-- The grouping the engine returns for `[c3x1, c3x2]`. -/
def c3out : List (String × GameGroup) :=
  [("DIR_GameX", ⟨some c3x1, [c3x2], [], "GameX"⟩),
   ("0100ABCDEF000000", ⟨some c3x1, [c3x2], [], "GameX"⟩)]

/-- First update of title `0177777777777800` (directory `D`). -/
def c4u1 : RomFile := ⟨["D", "Delta_one[0177777777777800].nsp"], some 7, 0⟩
/-- Second update of the same title in the same directory. -/
def c4u2 : RomFile := ⟨["D", "Delta_two[0177777777777800].nsp"], some 8, 0⟩
/-- Small base candidate of title `0123456789ABC100` (directory `E1`). -/
def c4fa : RomFile := ⟨["E1", "Alpha[0123456789ABC100].nsp"], some 10, 0⟩
/-- Large base candidate of title `0123456789ABC400` (directory `E2`),
sharing base id `0123456789ABC000` with `c4fa`. -/
def c4fb : RomFile := ⟨["E2", "Bravo[0123456789ABC400].nsp"], some 99, 0⟩
/-- The grouping the engine returns for `[c4u1, c4u2, c4fa, c4fb]`. -/
def c4out : List (String × GameGroup) :=
  [("0177777777777800", ⟨none, [c4u1, c4u2], [], "Game_0177777777777800"⟩),
   ("0123456789ABC100", ⟨some c4fa, [], [], "E1"⟩),
   ("0123456789ABC400", ⟨some c4fb, [], [], "E2"⟩),
   ("0177777777777000", ⟨none, [c4u1, c4u2], [], "Game_0177777777777800"⟩),
   ("0123456789ABC000", ⟨some c4fa, [], [], "E1"⟩)]

/-- Base candidate whose `stat()` raises (directory `DD`). -/
def c8fA : RomFile := ⟨["DD", "Alpha[0100AAAAAAAA1000].nsp"], none, 0⟩
/-- Readable base candidate of a second title in the same directory. -/
def c8fB : RomFile := ⟨["DD", "Bravo[0100BBBBBBBB1000].nsp"], some 5, 0⟩

/-- Readable base candidate (directory `EE`), scanned first. -/
def c8wP : RomFile := ⟨["EE", "Gamma[0100CCCCCCCC1000].nsp"], some 5, 0⟩
/-- Unreadable file of the same title, scanned second: its size
comparison in the loop raises and is caught there. -/
def c8wX : RomFile := ⟨["EE", "GammaBig[0100CCCCCCCC1000].nsp"], none, 0⟩

/-- A file with no extractable identifier and no path parts at all. -/
def c7f : RomFile := ⟨[], some 3, 0⟩

/-!
# Theorems
-/

/-! ## C10 — base-identifier computation -/

/-- C10: for every input string whose length is not exactly 16
(including the empty string) the base-identifier computation returns the
string unchanged; for every 16-character identifier it returns the first
13 characters concatenated with `"000"`. -/
theorem c10_theorem :
    (∀ s : String, s.length ≠ 16 → extract_base_title_id s = s) ∧
    (∀ s : String, s.length = 16 →
      extract_base_title_id s = String.mk (s.data.take 13 ++ ['0', '0', '0'])) := by
  constructor
  · intro s h
    unfold extract_base_title_id
    simp [h]
  · intro s h
    have hne : s ≠ "" := by
      intro he
      subst he
      simp at h
    unfold extract_base_title_id
    simp [hne, h]

/-- Witness for C10 at `"short"` (length 5) and a 16-character id. -/
theorem c10_witness :
    extract_base_title_id "short" = "short" ∧
    extract_base_title_id "0100ABCDEF000800" =
      String.mk ("0100ABCDEF000800".data.take 13 ++ ['0', '0', '0']) :=
  ⟨c10_theorem.1 "short" (by decide), c10_theorem.2 "0100ABCDEF000800" (by decide)⟩

/-! ## C9 — determinism / idempotence of the grouping engine -/

/-- C9: the grouping engine is a pure function of the scanned metadata
snapshot: two runs over the same root and the same file list (same
paths, sizes, modification times, in the same iteration order) return
identical mappings.  In this embedding the engine carries no other
state, so the property is determinism of `scanDirectory` itself. -/
theorem c9_theorem (root : String) (files1 files2 : List RomFile)
    (h : files1 = files2) :
    scanDirectory root files1 = scanDirectory root files2 := by
  rw [h]

/-- Witness for C9 on a concrete one-file snapshot. -/
theorem c9_witness :
    scanDirectory "rom" [⟨["A", "a[0123456789ABCDEF].nsp"], some 1, 0⟩] =
      scanDirectory "rom" [⟨["A", "a[0123456789ABCDEF].nsp"], some 1, 0⟩] :=
  c9_theorem "rom" _ _ rfl

/-! ## C7 — files with no identifier and no parent directory -/

/-- C7: a scanned file from which no identifier can be extracted and
whose relative path has no parts (so `parent_dir` is empty) contributes
nothing: its loop iteration raises nothing and leaves the state
unchanged, and the final mapping is the one obtained without the file. -/
theorem c7_theorem (root : String) (st : ScanSt) (l1 l2 : List RomFile)
    (f : RomFile) (hid : extract_title_id (filePath root f) = none)
    (hpd : f.relParts = []) :
    fileBody root st f = (st, false) ∧
    scanDirectory root (l1 ++ f :: l2) = scanDirectory root (l1 ++ l2) := by
  have hbody : ∀ st' : ScanSt, fileBody root st' f = (st', false) := by
    intro st'
    simp [fileBody, hid, parentDirOf, hpd]
  refine ⟨hbody st, ?_⟩
  unfold scanDirectory scanFold
  rw [List.foldl_append, List.foldl_append, List.foldl_cons]
  have : processFile root (List.foldl (processFile root) ⟨[], []⟩ l1) f =
      List.foldl (processFile root) ⟨[], []⟩ l1 := by
    unfold processFile
    rw [hbody]
  rw [this]

/-! ## Extraction basics (shared) -/

/-- Unfolding of a successful `hexRun16`. -/
theorem hexRun16_some {l run rest : List Char}
    (h : hexRun16 l = some (run, rest)) :
    run.length = 16 ∧ run.all isHexDig = true ∧ l = run ++ rest := by
  unfold hexRun16 at h
  by_cases hc : ((l.take 16).length == 16 && (l.take 16).all isHexDig) = true
  · rw [if_pos hc] at h
    obtain ⟨h1, h2⟩ := Prod.mk.injEq .. ▸ (Option.some.injEq .. ▸ h)
    subst h1
    subst h2
    simp only [Bool.and_eq_true, beq_iff_eq] at hc
    exact ⟨hc.1, hc.2, (List.take_append_drop 16 l).symm⟩
  · rw [if_neg hc] at h
    cases h

/-- Building a successful `hexRun16` from a decomposition. -/
theorem hexRun16_of_split {run rest : List Char} (h1 : run.length = 16)
    (h2 : run.all isHexDig = true) :
    hexRun16 (run ++ rest) = some (run, rest) := by
  unfold hexRun16
  have ht : (run ++ rest).take 16 = run := by
    rw [← h1]
    exact List.take_left run rest
  have hd : (run ++ rest).drop 16 = rest := by
    rw [← h1]
    exact List.drop_left run rest
  rw [ht, hd, if_pos]
  simp [h1, h2]

/-- A successful head match of the bracketed pattern is a hex run of 16. -/
theorem bracketHeadMatch_spec {l r : List Char}
    (h : bracketHeadMatch l = some r) :
    r.length = 16 ∧ r.all isHexDig = true := by
  unfold bracketHeadMatch at h
  split at h
  · split at h
    · rename_i t pr heq
      split at h
      · cases h
        obtain ⟨h1, h2, -⟩ := hexRun16_some heq
        exact ⟨h1, h2⟩
      · cases h
    · cases h
  · cases h

/-- A successful bracket-pattern search returns a run of 16 hex digits. -/
theorem findBracketed_spec {l r : List Char} (h : findBracketed l = some r) :
    r.length = 16 ∧ r.all isHexDig = true := by
  induction l with
  | nil => cases h
  | cons c t ih =>
    unfold findBracketed at h
    cases hh : bracketHeadMatch (c :: t) with
    | some r' =>
      rw [hh] at h
      cases h
      exact bracketHeadMatch_spec hh
    | none =>
      rw [hh] at h
      exact ih h

/-- A successful head match of the unbracketed pattern is a hex run of
16. -/
theorem unbrHeadMatch_spec {prev : Option Char} {l r : List Char}
    (h : unbrHeadMatch prev l = some r) :
    r.length = 16 ∧ r.all isHexDig = true := by
  unfold unbrHeadMatch at h
  split at h
  · cases h
  · split at h
    · rename_i pr heq
      split at h
      · cases h
      · cases h
        obtain ⟨h1, h2, -⟩ := hexRun16_some heq
        exact ⟨h1, h2⟩
    · cases h

/-- A successful unbracketed-pattern search returns a run of 16 hex
digits. -/
theorem findUnbracketed_spec {prev : Option Char} {l r : List Char}
    (h : findUnbracketed prev l = some r) :
    r.length = 16 ∧ r.all isHexDig = true := by
  induction l generalizing prev with
  | nil => cases h
  | cons c t ih =>
    unfold findUnbracketed at h
    cases hh : unbrHeadMatch prev (c :: t) with
    | some r' =>
      rw [hh] at h
      cases h
      exact unbrHeadMatch_spec hh
    | none =>
      rw [hh] at h
      exact ih h

/-- Every extracted identifier has exactly 16 characters. -/
theorem extractTid_length {l r : List Char} (h : extractTid l = some r) :
    r.length = 16 := by
  unfold extractTid at h
  cases hb : findBracketed l with
  | some run =>
    rw [hb] at h
    cases h
    rw [List.length_map]
    exact (findBracketed_spec hb).1
  | none =>
    rw [hb] at h
    cases hu : findUnbracketed none l with
    | some run =>
      rw [hu] at h
      cases h
      rw [List.length_map]
      exact (findUnbracketed_spec hu).1
    | none => rw [hu] at h; cases h

/-! ## Association-list lemmas (shared) -/

/-- Looking up the key just written. -/
theorem lookupA_setA_self {α : Type} (m : List (String × α)) (k : String)
    (v : α) : lookupA (setA m k v) k = some v := by
  induction m with
  | nil => simp [setA, lookupA]
  | cons kv t ih =>
    obtain ⟨k0, v0⟩ := kv
    unfold setA
    by_cases h : k0 = k
    · rw [if_pos h]
      simp [lookupA]
    · rw [if_neg h]
      unfold lookupA
      rw [if_neg h]
      exact ih

/-- Looking up a different key after a write. -/
theorem lookupA_setA_ne {α : Type} (m : List (String × α)) (k k' : String)
    (v : α) (h : k ≠ k') : lookupA (setA m k v) k' = lookupA m k' := by
  induction m with
  | nil => simp [setA, lookupA, h]
  | cons kv t ih =>
    obtain ⟨k0, v0⟩ := kv
    unfold setA
    by_cases h0 : k0 = k
    · rw [if_pos h0]
      unfold lookupA
      rw [if_neg h, if_neg (h0 ▸ h)]
    · rw [if_neg h0]
      unfold lookupA
      by_cases h1 : k0 = k'
      · rw [if_pos h1, if_pos h1]
      · rw [if_neg h1, if_neg h1]
        exact ih

/-- Membership after a write. -/
theorem mem_setA {α : Type} {m : List (String × α)} {k : String} {v : α}
    {kv' : String × α} (h : kv' ∈ setA m k v) : kv' ∈ m ∨ kv' = (k, v) := by
  induction m with
  | nil =>
    simp [setA] at h
    exact Or.inr h
  | cons kv t ih =>
    obtain ⟨k0, v0⟩ := kv
    unfold setA at h
    by_cases h0 : k0 = k
    · rw [if_pos h0] at h
      rcases List.mem_cons.mp h with h | h
      · exact Or.inr h
      · exact Or.inl (List.mem_cons_of_mem _ h)
    · rw [if_neg h0] at h
      rcases List.mem_cons.mp h with h | h
      · exact Or.inl (h ▸ List.mem_cons_self _ _)
      · rcases ih h with h | h
        · exact Or.inl (List.mem_cons_of_mem _ h)
        · exact Or.inr h

/-- A successful lookup is a member. -/
theorem lookupA_mem {α : Type} {m : List (String × α)} {k : String} {v : α}
    (h : lookupA m k = some v) : (k, v) ∈ m := by
  induction m with
  | nil => cases h
  | cons kv t ih =>
    obtain ⟨k0, v0⟩ := kv
    unfold lookupA at h
    by_cases h0 : k0 = k
    · rw [if_pos h0] at h
      cases h
      subst h0
      exact List.mem_cons_self _ _
    · rw [if_neg h0] at h
      exact List.mem_cons_of_mem _ (ih h)

/-- Keys after a write are among the old keys plus the written key. -/
theorem keys_setA_subset {α : Type} {m : List (String × α)} {k j : String}
    {v : α} (h : j ∈ (setA m k v).map Prod.fst) :
    j ∈ m.map Prod.fst ∨ j = k := by
  rw [List.mem_map] at h
  obtain ⟨kv', hmem, hfst⟩ := h
  rcases mem_setA hmem with h | h
  · exact Or.inl (hfst ▸ List.mem_map_of_mem Prod.fst h)
  · subst h
    exact Or.inr hfst.symm

/-- A write preserves distinctness of keys. -/
theorem setA_keys_nodup {α : Type} {m : List (String × α)} {k : String}
    {v : α} (h : (m.map Prod.fst).Nodup) :
    ((setA m k v).map Prod.fst).Nodup := by
  induction m with
  | nil => simp [setA]
  | cons kv t ih =>
    obtain ⟨k0, v0⟩ := kv
    unfold setA
    by_cases h0 : k0 = k
    · rw [if_pos h0]
      subst h0
      simpa using h
    · rw [if_neg h0]
      simp only [List.map_cons, List.nodup_cons] at h ⊢
      refine ⟨?_, ih h.2⟩
      intro hmem
      rcases keys_setA_subset hmem with hmem | hmem
      · exact h.1 hmem
      · exact h0 hmem

/-! ## C6 — identifier extraction follows the two-pattern search -/

/-- A head match of the bracketed pattern is exactly a
`BracketedSplit` with empty prefix. -/
theorem bracketHead_iff {l r : List Char} :
    bracketHeadMatch l = some r ↔ ∃ post, BracketedSplit l [] r post := by
  constructor
  · intro h
    unfold bracketHeadMatch at h
    split at h
    · rename_i t
      split at h
      · rename_i run rest heq
        split at h
        · rename_i hhead
          cases h
          obtain ⟨h1, h2, h3⟩ := hexRun16_some heq
          obtain ⟨post, hpost⟩ : ∃ post, rest = ']' :: post := by
            cases hrest : rest with
            | nil => rw [hrest] at hhead; simp at hhead
            | cons a post =>
              rw [hrest] at hhead
              simp at hhead
              exact ⟨post, by rw [hhead]⟩
          refine ⟨post, ?_, h1, h2⟩
          rw [hpost] at h3
          rw [h3]
          rfl
        · cases h
      · cases h
    · cases h
  · rintro ⟨post, heq, h1, h2⟩
    have hl : l = '[' :: (r ++ ']' :: post) := by simpa using heq
    subst hl
    have hrun : hexRun16 (r ++ ']' :: post) = some (r, ']' :: post) :=
      hexRun16_of_split h1 h2
    show (match hexRun16 (r ++ ']' :: post) with
      | some (run, rest) =>
        if (rest.head? == some ']') = true then some run else none
      | none => none) = some r
    rw [hrun]
    simp

/-- A decomposition of a list as a `BracketedSplit` with a cons prefix
shifts to the tail. -/
theorem bracketedSplit_cons {c : Char} {t pre run post : List Char} :
    BracketedSplit (c :: t) (c :: pre) run post ↔
      BracketedSplit t pre run post := by
  unfold BracketedSplit
  constructor
  · rintro ⟨heq, h1, h2⟩
    exact ⟨by simpa using heq, h1, h2⟩
  · rintro ⟨heq, h1, h2⟩
    exact ⟨by simp [heq], h1, h2⟩

/-- `findBracketed` misses exactly when no bracketed decomposition
exists. -/
theorem findBracketed_none_iff {l : List Char} :
    findBracketed l = none ↔
      ∀ pre run post, ¬ BracketedSplit l pre run post := by
  induction l with
  | nil =>
    constructor
    · rintro - pre run post ⟨heq, -, -⟩
      cases pre <;> simp at heq
    · intro _
      rfl
  | cons c t ih =>
    constructor
    · intro h pre run post hsp
      unfold findBracketed at h
      cases hh : bracketHeadMatch (c :: t) with
      | some r' => rw [hh] at h; cases h
      | none =>
        rw [hh] at h
        cases pre with
        | nil =>
          have := bracketHead_iff.mpr ⟨post, hsp⟩
          rw [hh] at this
          cases this
        | cons c2 pre' =>
          have hc : c2 = c ∧ t = pre' ++ '[' :: (run ++ ']' :: post) := by
            have := hsp.1
            simp at this
            exact ⟨this.1.symm, this.2⟩
          exact (ih.mp h) pre' run post ⟨hc.2, hsp.2.1, hsp.2.2⟩
    · intro hall
      unfold findBracketed
      cases hh : bracketHeadMatch (c :: t) with
      | some r' =>
        exfalso
        obtain ⟨post, hsp⟩ := bracketHead_iff.mp hh
        exact hall [] r' post hsp
      | none =>
        apply ih.mpr
        intro pre run post hsp
        exact hall (c :: pre) run post (bracketedSplit_cons.mpr hsp)

/-- A successful `findBracketed` returns the group of the leftmost
bracketed decomposition. -/
theorem findBracketed_some_split {l r : List Char}
    (h : findBracketed l = some r) :
    ∃ pre post, BracketedSplit l pre r post ∧
      ∀ pre2 run2 post2, BracketedSplit l pre2 run2 post2 →
        pre.length ≤ pre2.length := by
  induction l with
  | nil => cases h
  | cons c t ih =>
    unfold findBracketed at h
    cases hh : bracketHeadMatch (c :: t) with
    | some r' =>
      rw [hh] at h
      cases h
      obtain ⟨post, hsp⟩ := bracketHead_iff.mp hh
      exact ⟨[], post, hsp, fun _ _ _ _ => Nat.zero_le _⟩
    | none =>
      rw [hh] at h
      obtain ⟨pre, post, hsp, hmin⟩ := ih h
      refine ⟨c :: pre, post, bracketedSplit_cons.mpr hsp, ?_⟩
      intro pre2 run2 post2 hsp2
      cases pre2 with
      | nil =>
        exfalso
        have := bracketHead_iff.mpr ⟨post2, hsp2⟩
        rw [hh] at this
        cases this
      | cons c2 pre2' =>
        have hc : c2 = c ∧ t = pre2' ++ '[' :: (run2 ++ ']' :: post2) := by
          have := hsp2.1
          simp at this
          exact ⟨this.1.symm, this.2⟩
        have := hmin pre2' run2 post2 ⟨hc.2, hsp2.2.1, hsp2.2.2⟩
        simpa using Nat.succ_le_succ this

/-- `prevCharOf` over an empty prefix. -/
theorem prevCharOf_nil (prev : Option Char) : prevCharOf prev [] = prev := rfl

/-- `prevCharOf` shifts a cons prefix into the virtual predecessor. -/
theorem prevCharOf_cons (prev : Option Char) (c : Char) (pre : List Char) :
    prevCharOf prev (c :: pre) = prevCharOf (some c) pre := by
  cases pre with
  | nil => rfl
  | cons b pre' =>
    unfold prevCharOf
    rw [List.getLast?_cons_cons]
    cases h : (b :: pre').getLast? with
    | none =>
      exfalso
      rw [List.getLast?_eq_none_iff] at h
      cases h
    | some d => rfl

/-- A head match of the unbracketed pattern is exactly an `UnbrSplitP`
with empty prefix. -/
theorem unbrHead_iff {prev : Option Char} {l r : List Char} :
    unbrHeadMatch prev l = some r ↔ ∃ post, UnbrSplitP prev l [] r post := by
  constructor
  · intro h
    unfold unbrHeadMatch at h
    by_cases hp : (prev == some '[') = true
    · rw [if_pos hp] at h
      cases h
    · rw [if_neg hp] at h
      split at h
      · rename_i run rest heq
        split at h
        · cases h
        · rename_i hhead
          cases h
          obtain ⟨h1, h2, h3⟩ := hexRun16_some heq
          refine ⟨rest, by simpa using h3, h1, h2, ?_, ?_⟩
          · rw [prevCharOf_nil]
            intro he
            rw [he] at hp
            simp at hp
          · intro he
            rw [he] at hhead
            simp at hhead
      · cases h
  · rintro ⟨post, heq, h1, h2, hlast, hhead⟩
    rw [prevCharOf_nil] at hlast
    have hl : l = r ++ post := by simpa using heq
    subst hl
    unfold unbrHeadMatch
    rw [if_neg (by simpa using hlast), hexRun16_of_split h1 h2]
    show (if (post.head? == some ']') = true then none else some r) = some r
    rw [if_neg (by simpa using hhead)]

/-- A decomposition as an `UnbrSplitP` with a cons prefix shifts to the
tail, the head becoming the virtual predecessor. -/
theorem unbrSplitP_cons {prev : Option Char} {c : Char}
    {t pre run post : List Char} :
    UnbrSplitP prev (c :: t) (c :: pre) run post ↔
      UnbrSplitP (some c) t pre run post := by
  unfold UnbrSplitP
  rw [prevCharOf_cons]
  constructor
  · rintro ⟨heq, h1, h2, h4, h5⟩
    exact ⟨by simpa using heq, h1, h2, h4, h5⟩
  · rintro ⟨heq, h1, h2, h4, h5⟩
    exact ⟨by simp [heq], h1, h2, h4, h5⟩

/-- `findUnbracketed` misses exactly when no unbracketed decomposition
exists (relative to the virtual predecessor). -/
theorem findUnbr_none_iff {prev : Option Char} {l : List Char} :
    findUnbracketed prev l = none ↔
      ∀ pre run post, ¬ UnbrSplitP prev l pre run post := by
  induction l generalizing prev with
  | nil =>
    constructor
    · rintro - pre run post ⟨heq, h1, -, -⟩
      have h0 := congrArg List.length heq
      simp at h0
      omega
    · intro _
      rfl
  | cons c t ih =>
    constructor
    · intro h pre run post hsp
      unfold findUnbracketed at h
      cases hh : unbrHeadMatch prev (c :: t) with
      | some r' => rw [hh] at h; cases h
      | none =>
        rw [hh] at h
        cases pre with
        | nil =>
          have := unbrHead_iff.mpr ⟨post, hsp⟩
          rw [hh] at this
          cases this
        | cons c2 pre' =>
          have hc2 : c2 = c := by
            have := hsp.1
            simp at this
            exact this.1.symm
          subst hc2
          exact (ih.mp h) pre' run post (unbrSplitP_cons.mp hsp)
    · intro hall
      unfold findUnbracketed
      cases hh : unbrHeadMatch prev (c :: t) with
      | some r' =>
        exfalso
        obtain ⟨post, hsp⟩ := unbrHead_iff.mp hh
        exact hall [] r' post hsp
      | none =>
        apply ih.mpr
        intro pre run post hsp
        exact hall (c :: pre) run post (unbrSplitP_cons.mpr hsp)

/-- A successful `findUnbracketed` returns the group of the leftmost
unbracketed decomposition. -/
theorem findUnbr_some_split {prev : Option Char} {l r : List Char}
    (h : findUnbracketed prev l = some r) :
    ∃ pre post, UnbrSplitP prev l pre r post ∧
      ∀ pre2 run2 post2, UnbrSplitP prev l pre2 run2 post2 →
        pre.length ≤ pre2.length := by
  induction l generalizing prev with
  | nil => cases h
  | cons c t ih =>
    unfold findUnbracketed at h
    cases hh : unbrHeadMatch prev (c :: t) with
    | some r' =>
      rw [hh] at h
      cases h
      obtain ⟨post, hsp⟩ := unbrHead_iff.mp hh
      exact ⟨[], post, hsp, fun _ _ _ _ => Nat.zero_le _⟩
    | none =>
      rw [hh] at h
      obtain ⟨pre, post, hsp, hmin⟩ := ih h
      refine ⟨c :: pre, post, unbrSplitP_cons.mpr hsp, ?_⟩
      intro pre2 run2 post2 hsp2
      cases pre2 with
      | nil =>
        exfalso
        have := unbrHead_iff.mpr ⟨post2, hsp2⟩
        rw [hh] at this
        cases this
      | cons c2 pre2' =>
        have hc2 : c2 = c := by
          have := hsp2.1
          simp at this
          exact this.1.symm
        subst hc2
        have := hmin pre2' run2 post2 (unbrSplitP_cons.mp hsp2)
        simpa using Nat.succ_le_succ this

/-- `UnbrSplit` is `UnbrSplitP` with no virtual predecessor. -/
theorem unbrSplit_iff {l pre run post : List Char} :
    UnbrSplit l pre run post ↔ UnbrSplitP none l pre run post := by
  unfold UnbrSplit UnbrSplitP prevCharOf
  cases h : pre.getLast? with
  | none => simp
  | some c => simp

/-- C6: identifier extraction returns the leftmost bracket-delimited
16-hex-digit run upper-cased when one exists (regardless of any
unbracketed runs, even earlier ones); otherwise the leftmost unbracketed
16-hex-digit run with no `[` just before it and no `]` just after it,
upper-cased; otherwise `none`. -/
theorem c6_theorem (s : String) :
    ((∃ pre run post, BracketedSplit s.data pre run post) →
      ∃ pre run post, BracketedSplit s.data pre run post ∧
        (∀ pre2 run2 post2, BracketedSplit s.data pre2 run2 post2 →
          pre.length ≤ pre2.length) ∧
        extract_title_id s = some (String.mk (run.map Char.toUpper))) ∧
    ((∀ pre run post, ¬ BracketedSplit s.data pre run post) →
      ((∃ pre run post, UnbrSplit s.data pre run post) →
        ∃ pre run post, UnbrSplit s.data pre run post ∧
          (∀ pre2 run2 post2, UnbrSplit s.data pre2 run2 post2 →
            pre.length ≤ pre2.length) ∧
          extract_title_id s = some (String.mk (run.map Char.toUpper))) ∧
      ((∀ pre run post, ¬ UnbrSplit s.data pre run post) →
        extract_title_id s = none)) := by
  constructor
  · rintro ⟨pre, run, post, hsp⟩
    cases hb : findBracketed s.data with
    | none => exact absurd hsp (findBracketed_none_iff.mp hb pre run post)
    | some r =>
      obtain ⟨pre', post', hsp', hmin⟩ := findBracketed_some_split hb
      refine ⟨pre', r, post', hsp', hmin, ?_⟩
      unfold extract_title_id extractTid
      rw [hb]
      rfl
  · intro hnob
    have hb : findBracketed s.data = none := findBracketed_none_iff.mpr hnob
    constructor
    · rintro ⟨pre, run, post, hsp⟩
      rw [unbrSplit_iff] at hsp
      cases hu : findUnbracketed none s.data with
      | none => exact absurd hsp (findUnbr_none_iff.mp hu pre run post)
      | some r =>
        obtain ⟨pre', post', hsp', hmin⟩ := findUnbr_some_split hu
        refine ⟨pre', r, post', unbrSplit_iff.mpr hsp', ?_, ?_⟩
        · intro pre2 run2 post2 h2
          exact hmin pre2 run2 post2 (unbrSplit_iff.mp h2)
        · unfold extract_title_id extractTid
          rw [hb, hu]
          rfl
    · intro hnou
      have hu : findUnbracketed none s.data = none :=
        findUnbr_none_iff.mpr
          (fun pre run post h => hnou pre run post (unbrSplit_iff.mpr h))
      unfold extract_title_id extractTid
      rw [hb, hu]
      rfl

/-- Witness for C6 on a name whose bracketed id sits after other text
and is followed by an unbracketed hex run. -/
theorem c6_witness :
    extract_title_id "[0123456789abcdef]xyz0123456789ABCDEF" =
      some "0123456789ABCDEF" := by
  obtain ⟨pre, run, post, hsp, hmin, hex⟩ :=
    ( c6_theorem "[0123456789abcdef]xyz0123456789ABCDEF").1
      ⟨[], "0123456789abcdef".data, "xyz0123456789ABCDEF".data,
        rfl, rfl, rfl⟩
  have h0 : pre.length ≤ 0 :=
    hmin [] "0123456789abcdef".data "xyz0123456789ABCDEF".data
      ⟨rfl, rfl, rfl⟩
  have hpre : pre = [] := List.eq_nil_of_length_eq_zero (Nat.le_zero.mp h0)
  obtain ⟨heq, h1, -⟩ := hsp
  rw [hpre] at heq
  have hcat : run ++ (']' :: post) =
      "0123456789abcdef".data ++ (']' :: "xyz0123456789ABCDEF".data) := by
    have h3 := congrArg List.tail heq
    exact h3.symm
  obtain ⟨hrun, -⟩ :=
    List.append_inj hcat (by rw [h1]; rfl)
  rw [hrun] at hex
  exact hex

/-! ## C5 — classification rules and precedence -/

/-- C5 (amended): with a 16-hex identifier extracted from the lower-cased
path, (i) a `800` tail classifies as Update provided no `dlc` keyword
matches; (ii) a `000` tail classifies as Base provided neither the `dlc`
keyword nor any update keyword matches; (iii) a `00x` tail with `x ≠ 0`
always classifies as DLC; (iv) a file matching both the DLC and the
update rule is DLC — the DLC rule is checked first and wins. -/
theorem c5_theorem :
    (∀ p n : String, ∀ tid : List Char,
      extractTid (lowerL p.data) = some tid →
      tid.drop 13 = "800".data →
      hasSubList "dlc".data (lowerL n.data) = false →
      hasSubList "dlc".data (lowerL p.data) = false →
      classifyFile p n = .update) ∧
    (∀ p n : String, ∀ tid : List Char,
      extractTid (lowerL p.data) = some tid →
      tid.drop 13 = "000".data →
      hasSubList "dlc".data (lowerL n.data) = false →
      hasSubList "dlc".data (lowerL p.data) = false →
      (∀ kw ∈ updateKeywords, hasSubList kw (lowerL n.data) = false) →
      classifyFile p n = .base) ∧
    (∀ p n : String, ∀ tid : List Char, ∀ c : Char,
      extractTid (lowerL p.data) = some tid →
      tid.drop 13 = ['0', '0', c] → c ≠ '0' →
      classifyFile p n = .dlc) ∧
    (∀ p n : String, is_dlc_file p n = true → is_update_file p n = true →
      classifyFile p n = .dlc) := by
  refine ⟨?_, ?_, ?_, ?_⟩
  · intro p n tid hext htail hkn hkp
    have hlen : tid.length = 16 := extractTid_length hext
    have hdlc : is_dlc_file p n = false := by
      simp only [is_dlc_file, hkn, hkp, hext, Bool.false_or]
      simp [dlcTail, htail]
    have hupd : is_update_file p n = true := by
      simp only [is_update_file, hext, Bool.or_eq_true]
      right
      simp [updTail, htail, hlen]
    simp [classifyFile, hdlc, hupd]
  · intro p n tid hext htail hkn hkp hkw
    have hdlc : is_dlc_file p n = false := by
      simp only [is_dlc_file, hkn, hkp, hext, Bool.false_or]
      simp [dlcTail, htail]
    have hupd : is_update_file p n = false := by
      simp only [is_update_file, hext, Bool.or_eq_false_iff]
      constructor
      · rw [List.any_eq_false]
        intro kw hkwm
        simp [hkw kw hkwm]
      · simp [updTail, htail]
    simp [classifyFile, hdlc, hupd]
  · intro p n tid c hext htail hc
    have hdlc : is_dlc_file p n = true := by
      simp only [is_dlc_file, hext, Bool.or_eq_true]
      right
      simp [dlcTail, htail, extractTid_length hext, hc]
    simp [classifyFile, hdlc]
  · intro p n hdlc _
    simp [classifyFile, hdlc]

/-- Counterexample for C5: `patch_[0123456789ABC000].nsp` has an
identifier ending in `000`, yet the `patch` keyword makes the update
rule fire first, so classification yields Update, not Base. -/
theorem c5_counterexample :
    extract_title_id "rom/patch_[0123456789ABC000].nsp" =
      some "0123456789ABC000" ∧
    classifyFile "rom/patch_[0123456789ABC000].nsp"
      "patch_[0123456789ABC000].nsp" = .update :=
  ⟨rfl, rfl⟩

/-- Witness for C5 at four concrete files, one per conjunct. -/
theorem c5_witness :
    classifyFile "rom/game[0123456789ABC800].nsp" "game[0123456789ABC800].nsp"
        = .update ∧
    classifyFile "rom/plain[0123456789ABC000].nsp" "plain[0123456789ABC000].nsp"
        = .base ∧
    classifyFile "rom/game[0123456789ABC00F].nsp" "game[0123456789ABC00F].nsp"
        = .dlc ∧
    classifyFile "rom/dlc_update[0123456789ABC800].nsp"
        "dlc_update[0123456789ABC800].nsp" = .dlc :=
  ⟨c5_theorem.1 _ _ "0123456789ABC800".data (by rfl) (by rfl) (by rfl) (by rfl),
   c5_theorem.2.1 _ _ "0123456789ABC000".data (by rfl) (by rfl) (by rfl) (by rfl)
     (by decide),
   c5_theorem.2.2.1 _ _ "0123456789ABC00F".data 'F' (by rfl) (by rfl) (by decide),
   c5_theorem.2.2.2 _ _ (by rfl) (by rfl)⟩

/-! ## C1 — update selection -/

/-- The accumulator fold inside `selectLatestUpdate` keeps a member (or
the initial accumulator) of maximal size. -/
theorem selectFold_spec (rest : List RomFile) (acc : RomFile × Nat)
    (hs : ∀ u ∈ rest, u.size.isSome) (hacc : acc.1.size = some acc.2) :
    ∃ b : RomFile × Nat,
      rest.foldlM selectStep acc = .ok b ∧
      (b = acc ∨ b.1 ∈ rest) ∧ b.1.size = some b.2 ∧ acc.2 ≤ b.2 ∧
      ∀ w ∈ rest, ∀ m, w.size = some m → m ≤ b.2 := by
  induction rest generalizing acc with
  | nil => exact ⟨acc, rfl, Or.inl rfl, hacc, Nat.le_refl _, by simp⟩
  | cons w t ih =>
    obtain ⟨kw, hkw⟩ : ∃ k, w.size = some k := by
      have hw := hs w (by simp)
      cases h : w.size with
      | none => rw [h] at hw; simp at hw
      | some k => exact ⟨k, rfl⟩
    have hstep1 : selectStep acc w =
        (if kw > acc.2 then pure (w, kw) else pure acc) := by
      simp only [selectStep, sizeE, hkw]
      rfl
    by_cases hgt : kw > acc.2
    · obtain ⟨b, hfold, hmem, hbsz, hle, hmax⟩ :=
        ih (w, kw) (fun u hu => hs u (by simp [hu])) hkw
      refine ⟨b, ?_, ?_, hbsz, ?_, ?_⟩
      · rw [List.foldlM_cons, hstep1, if_pos hgt]
        exact hfold
      · rcases hmem with h | h
        · exact Or.inr (by simp [h])
        · exact Or.inr (by simp [h])
      · exact Nat.le_trans (Nat.le_of_lt hgt) hle
      · intro v hv m hm
        rcases List.mem_cons.mp hv with h | h
        · subst h
          rw [hkw] at hm
          cases hm
          exact hle
        · exact hmax v h m hm
    · obtain ⟨b, hfold, hmem, hbsz, hle, hmax⟩ :=
        ih acc (fun u hu => hs u (by simp [hu])) hacc
      refine ⟨b, ?_, ?_, hbsz, hle, ?_⟩
      · rw [List.foldlM_cons, hstep1, if_neg hgt]
        exact hfold
      · rcases hmem with h | h
        · exact Or.inl h
        · exact Or.inr (by simp [h])
      · intro v hv m hm
        rcases List.mem_cons.mp hv with h | h
        · subst h
          rw [hkw] at hm
          cases hm
          exact Nat.le_trans (Nat.le_of_not_lt hgt) hle
        · exact hmax v h m hm

/-- C1 (amended): on a non-empty update list whose sizes are all
readable, `merge_files` selects a member of maximal byte size; the
parsed version strings play no role in the choice. -/
theorem c1_theorem (updates : List RomFile) (hne : updates ≠ [])
    (hs : ∀ u ∈ updates, u.size.isSome) :
    ∃ u n, selectLatestUpdate updates = .ok (some u) ∧ u ∈ updates ∧
      u.size = some n ∧ ∀ w ∈ updates, ∀ m, w.size = some m → m ≤ n := by
  match updates, hne with
  | u :: rest, _ =>
    obtain ⟨k0, hk0⟩ : ∃ k, u.size = some k := by
      have hu := hs u (by simp)
      cases h : u.size with
      | none => rw [h] at hu; simp at hu
      | some k => exact ⟨k, rfl⟩
    obtain ⟨b, hfold, hmem, hbsz, hle0, hmax⟩ :=
      selectFold_spec rest (u, k0) (fun w hw => hs w (by simp [hw])) hk0
    have hsz : sizeE u = .ok k0 := by simp [sizeE, hk0]
    refine ⟨b.1, b.2, ?_, ?_, hbsz, ?_⟩
    · show (do
        let k0 ← sizeE u
        let best ← rest.foldlM selectStep (u, k0)
        Except.ok (some best.1)) = Except.ok (some b.1)
      rw [hsz]
      show (do
        let best ← rest.foldlM selectStep (u, k0)
        Except.ok (some best.1)) = Except.ok (some b.1)
      rw [hfold]
      rfl
    · rcases hmem with h | h
      · subst h; simp
      · simp [h]
    · intro w hw m hm
      rcases List.mem_cons.mp hw with h | h
      · subst h
        rw [hk0] at hm
        cases hm
        exact hle0
      · exact hmax w h m hm

/-- Counterexample for C1: among updates parsing to versions `1.2.0`
(size 10), `1.2.0` (size 20) and `1.1.9` (size 30), the code selects the
`1.1.9` file — the largest — although its version 3-tuple is strictly
below `1.2.0`; selection ignores versions entirely. -/
theorem c1_counterexample :
    selectLatestUpdate [c1u1, c1u2, c1u3] = .ok (some c1u3) ∧
    extract_version c1u2 = some "1.2.0" ∧
    extract_version c1u3 = some "1.1.9" ∧
    specTupleLt (specVersionTuple "1.1.9") (specVersionTuple "1.2.0") :=
  ⟨rfl, rfl, rfl, by decide⟩

/-- Witness for C1 on a singleton update list. -/
theorem c1_witness :
    selectLatestUpdate [⟨["G", "up_v9.9.nsp"], some 4, 0⟩] =
      .ok (some ⟨["G", "up_v9.9.nsp"], some 4, 0⟩) := by
  obtain ⟨u, n, heq, hmem, -, -⟩ :=
    c1_theorem [⟨["G", "up_v9.9.nsp"], some 4, 0⟩] (by simp)
      (by intro u hu; simp at hu; subst hu; rfl)
  have hu : u = ⟨["G", "up_v9.9.nsp"], some 4, 0⟩ := by simpa using hmem
  rw [hu] at heq
  exact heq

/-! ## C2 — name-based deduplication (absent from the code) -/

/-- Counterexample for C2: directories `Foo` and `foo!` produce two
distinct groups whose display names share the normalized form `foo`; the
engine performs no name-based deduplication, so both survive. -/
theorem c2_counterexample :
    scanDirectory "rom" [c2fa, c2fb] = .ok c2out ∧
    (lookupA c2out "0111111111111000").map GameGroup.name = some "Foo" ∧
    (lookupA c2out "0122222222222000").map GameGroup.name = some "foo!" ∧
    specNormalizeName "Foo" = specNormalizeName "foo!" :=
  ⟨rfl, rfl, rfl, rfl⟩

/-- The directory pass preserves distinctness of the mapping keys. -/
theorem dirFold_keys_nodup {raw : List (String × RawEntry)} :
    ∀ (ds : List (String × List String)) (gf0 gf : List (String × GameGroup)),
      (gf0.map Prod.fst).Nodup → ds.foldlM (dirStep raw) gf0 = .ok gf →
      (gf.map Prod.fst).Nodup := by
  intro ds
  induction ds with
  | nil =>
    intro gf0 gf h hok
    cases hok
    exact h
  | cons kv rest ih =>
    intro gf0 gf h hok
    rw [List.foldlM_cons] at hok
    cases hstep : dirStep raw gf0 kv with
    | error e => rw [hstep] at hok; cases hok
    | ok gf1 =>
      rw [hstep] at hok
      refine ih gf1 gf ?_ hok
      unfold dirStep at hstep
      split at hstep
      · cases hstep
      · have := Except.ok.inj hstep
        rw [← this]
        exact setA_keys_nodup h
      · rename_i t1 t2 restt heqk
        cases hmg : mergeDirTids raw kv.1 (t1 :: t2 :: restt) with
        | error e =>
          replace hstep : (Except.error e :
              Except Unit (List (String × GameGroup))) = .ok gf1 := by
            rw [hmg] at hstep
            exact hstep
          cases hstep
        | ok g =>
          replace hstep : (Except.ok (setA gf0 ("DIR_" ++ kv.1) g) :
              Except Unit (List (String × GameGroup))) = .ok gf1 := by
            rw [hmg] at hstep
            exact hstep
          rw [← Except.ok.inj hstep]
          exact setA_keys_nodup h

/-- The base-id pass preserves distinctness of the mapping keys. -/
theorem baseFold_keys_nodup {raw : List (String × RawEntry)} :
    ∀ (bm : List (String × List String)) (gf0 : List (String × GameGroup)),
      (gf0.map Prod.fst).Nodup → ((basePass raw bm gf0).map Prod.fst).Nodup := by
  intro bm
  induction bm with
  | nil =>
    intro gf0 h
    exact h
  | cons kv rest ih =>
    intro gf0 h
    show ((basePass raw rest (baseStep raw gf0 kv)).map Prod.fst).Nodup
    apply ih
    unfold baseStep
    by_cases hsk : ("DIR_".data.isPrefixOf kv.1.data || (lookupA gf0 kv.1).isSome) = true
    · rw [if_pos hsk]
      exact h
    · rw [if_neg hsk]
      cases hp : pickMainId raw kv.2 with
      | none => exact h
      | some mv =>
        obtain ⟨mid, bf⟩ := mv
        exact setA_keys_nodup h

/-- C2 (amended): the returned mapping has pairwise-distinct group keys;
no name-based deduplication is performed (see the counterexample), so
"at most one group per key" is all the engine guarantees. -/
theorem c2_theorem (root : String) (files : List RomFile)
    (out : List (String × GameGroup))
    (hok : scanDirectory root files = .ok out) :
    (out.map Prod.fst).Nodup := by
  simp only [scanDirectory] at hok
  cases hdp : dirPass (scanFold root files).raw with
  | error e => rw [hdp] at hok; cases hok
  | ok gf =>
    rw [hdp] at hok
    cases hok
    exact baseFold_keys_nodup _ _
      (dirFold_keys_nodup (dirGroups (scanFold root files).raw) [] gf
        (by simp) hdp)

/-- Witness for C2 on the counterexample snapshot. -/
theorem c2_witness : (c2out.map Prod.fst).Nodup :=
  c2_theorem "rom" [c2fa, c2fb] c2out rfl

/-! ## C3 — directory groups do not absorb identifier groups -/

/-- Counterexample for C3: directory `GameX` holds two identifiers, so a
`DIR_GameX` group is produced — but the base-identifier group
`0100ABCDEF000000` over the same files is emitted as well, and the base
file appears in both groups. -/
theorem c3_counterexample :
    scanDirectory "rom" [c3x1, c3x2] = .ok c3out ∧
    (lookupA c3out "DIR_GameX").map GameGroup.base = some (some c3x1) ∧
    (lookupA c3out "0100ABCDEF000000").map GameGroup.base = some (some c3x1) ∧
    (lookupA c3out "DIR_GameX").map GameGroup.updates = some [c3x2] ∧
    (lookupA c3out "0100ABCDEF000000").map GameGroup.updates = some [c3x2] :=
  ⟨rfl, rfl, rfl, rfl, rfl⟩

/-- What one base-merge step does to a directory group: files and name
unchanged, base kept or replaced by the candidate. -/
theorem mergeBaseE_parts {g gb : GameGroup} {b? : Option RomFile}
    (h : mergeBaseE g b? = .ok gb) :
    gb.updates = g.updates ∧ gb.dlcs = g.dlcs ∧ gb.name = g.name ∧
    (gb.base = g.base ∨ gb.base = b?) := by
  cases hb : b? with
  | none =>
    rw [hb] at h
    replace h : (Except.ok g : Except Unit GameGroup) = Except.ok gb := h
    cases h
    exact ⟨rfl, rfl, rfl, Or.inl rfl⟩
  | some b =>
    rw [hb] at h
    unfold mergeBaseE at h
    cases hgb : g.base with
    | none =>
      rw [hgb] at h
      replace h : (Except.ok { g with base := some b } :
          Except Unit GameGroup) = Except.ok gb := h
      cases h
      exact ⟨rfl, rfl, rfl, Or.inr rfl⟩
    | some gb0 =>
      rw [hgb] at h
      replace h : (do
          let bs ← sizeE b
          let gbs ← sizeE gb0
          if bs > gbs then
            (Except.ok { g with base := some b } : Except Unit GameGroup)
          else Except.ok g) = Except.ok gb := h
      cases hsz : sizeE b with
      | error e =>
        replace h : (Except.error e : Except Unit GameGroup) =
            Except.ok gb := by
          rw [hsz] at h
          exact h
        cases h
      | ok bs =>
        cases hsz2 : sizeE gb0 with
        | error e =>
          replace h : (Except.error e : Except Unit GameGroup) =
              Except.ok gb := by
            rw [hsz, hsz2] at h
            exact h
          cases h
        | ok gbs =>
          replace h : (if bs > gbs then
                (Except.ok { g with base := some b } : Except Unit GameGroup)
              else Except.ok g) = Except.ok gb := by
            rw [hsz, hsz2] at h
            exact h
          by_cases hgt : bs > gbs
          · rw [if_pos hgt] at h
            cases h
            exact ⟨rfl, rfl, rfl, Or.inr rfl⟩
          · rw [if_neg hgt] at h
            cases h
            exact ⟨rfl, rfl, rfl, Or.inl (by rw [hgb])⟩

/-- What one step of the directory-merge fold does. -/
theorem mergeDirStep_parts {raw : List (String × RawEntry)} {t : String}
    {g g1 : GameGroup} (h : mergeDirStep raw g t = .ok g1) :
    g1.updates = g.updates ++ (entryOf raw t).updates ∧
    g1.dlcs = g.dlcs ++ (entryOf raw t).dlcs ∧
    g1.name = g.name ∧
    (g1.base = g.base ∨ g1.base = (entryOf raw t).base) := by
  unfold mergeDirStep at h
  cases hbe : mergeBaseE g (entryOf raw t).base with
  | error e => rw [hbe] at h; cases h
  | ok gb =>
    rw [hbe] at h
    cases h
    obtain ⟨h1, h2, h3, h4⟩ := mergeBaseE_parts hbe
    exact ⟨by rw [h1], by rw [h2], h3, h4⟩

/-- What the whole directory-merge fold does: it pools every related
id's updates and DLCs onto the initial group and takes the base from the
initial group or one of the entries. -/
theorem mergeFold_parts {raw : List (String × RawEntry)} :
    ∀ (ts : List String) (g0 gr : GameGroup),
      ts.foldlM (mergeDirStep raw) g0 = .ok gr →
      gr.updates = g0.updates ++
        (ts.map (fun t => (entryOf raw t).updates)).flatten ∧
      gr.dlcs = g0.dlcs ++ (ts.map (fun t => (entryOf raw t).dlcs)).flatten ∧
      gr.name = g0.name ∧
      (gr.base = g0.base ∨ ∃ t ∈ ts, gr.base = (entryOf raw t).base) := by
  intro ts
  induction ts with
  | nil =>
    intro g0 gr h
    cases h
    exact ⟨by simp, by simp, rfl, Or.inl rfl⟩
  | cons t rest ih =>
    intro g0 gr h
    rw [List.foldlM_cons] at h
    cases hstep : mergeDirStep raw g0 t with
    | error e => rw [hstep] at h; cases h
    | ok g1 =>
      rw [hstep] at h
      obtain ⟨hu, hd, hn, hb⟩ := ih g1 gr h
      obtain ⟨hg1u, hg1d, hg1n, hg1b⟩ := mergeDirStep_parts hstep
      refine ⟨?_, ?_, ?_, ?_⟩
      · rw [hu, hg1u]
        simp
      · rw [hd, hg1d]
        simp
      · rw [hn, hg1n]
      · rcases hb with hb | ⟨t', ht', hb⟩
        · rw [hb]
          rcases hg1b with h' | h'
          · exact Or.inl h'
          · exact Or.inr ⟨t, by simp, h'⟩
        · exact Or.inr ⟨t', by simp [ht'], hb⟩

/-- What one step of the base-id pooling fold does. -/
theorem poolStep_parts (raw : List (String × RawEntry)) (g : GameGroup)
    (t : String) :
    (poolStep raw g t).updates = g.updates ++ (entryOf raw t).updates ∧
    (poolStep raw g t).dlcs = g.dlcs ++ (entryOf raw t).dlcs ∧
    (poolStep raw g t).name = g.name ∧
    ((poolStep raw g t).base = g.base ∨
      (poolStep raw g t).base = (entryOf raw t).base) := by
  unfold poolStep
  dsimp only
  by_cases h : (g.base.isNone && (entryOf raw t).base.isSome) = true
  · rw [if_pos h]
    exact ⟨rfl, rfl, rfl, Or.inr rfl⟩
  · rw [if_neg h]
    exact ⟨rfl, rfl, rfl, Or.inl rfl⟩

/-- What the whole base-id pooling fold does. -/
theorem poolFold_parts (raw : List (String × RawEntry)) :
    ∀ (rids : List String) (g0 : GameGroup),
      (poolRelated raw g0 rids).updates = g0.updates ++
        (rids.map (fun t => (entryOf raw t).updates)).flatten ∧
      (poolRelated raw g0 rids).dlcs = g0.dlcs ++
        (rids.map (fun t => (entryOf raw t).dlcs)).flatten ∧
      (poolRelated raw g0 rids).name = g0.name ∧
      ((poolRelated raw g0 rids).base = g0.base ∨
        ∃ t ∈ rids, (poolRelated raw g0 rids).base = (entryOf raw t).base) := by
  intro rids
  induction rids with
  | nil =>
    intro g0
    exact ⟨by simp [poolRelated], by simp [poolRelated], rfl, Or.inl rfl⟩
  | cons t rest ih =>
    intro g0
    have hfold : poolRelated raw g0 (t :: rest) =
        poolRelated raw (poolStep raw g0 t) rest := by
      simp [poolRelated]
    rw [hfold]
    obtain ⟨hu, hd, hn, hb⟩ := ih (poolStep raw g0 t)
    obtain ⟨hsu, hsd, hsn, hsb⟩ := poolStep_parts raw g0 t
    refine ⟨?_, ?_, ?_, ?_⟩
    · rw [hu, hsu]
      simp
    · rw [hd, hsd]
      simp
    · rw [hn, hsn]
    · rcases hb with hb | ⟨t', ht', hb⟩
      · rw [hb]
        rcases hsb with h' | h'
        · exact Or.inl h'
        · exact Or.inr ⟨t, by simp, h'⟩
      · exact Or.inr ⟨t', by simp [ht'], hb⟩

/-- C3 (amended): a directory spanning at least two identifiers does get
one directory-keyed group pooling every identifier's updates and DLCs,
with its base drawn from the identifiers' bases — the pooling direction
of the claim holds, only the absorption part fails. -/
theorem c3_theorem (raw : List (String × RawEntry)) (d : String)
    (tids : List String) (h2 : 2 ≤ tids.length) (g : GameGroup)
    (hok : mergeDirTids raw d tids = .ok g) :
    g.updates = (tids.map (fun t => (entryOf raw t).updates)).flatten ∧
    g.dlcs = (tids.map (fun t => (entryOf raw t).dlcs)).flatten ∧
    g.name = d ∧
    (g.base = none ∨ ∃ t ∈ tids, g.base = (entryOf raw t).base) := by
  have := h2
  obtain ⟨hu, hd, hn, hb⟩ := mergeFold_parts tids ⟨none, [], [], d⟩ g hok
  exact ⟨by simpa using hu, by simpa using hd, hn, by simpa using hb⟩

/-- Witness for C3 on the two-identifier directory of the
counterexample input. -/
theorem c3_witness :
    (⟨some c3x1, [c3x2], [], "GameX"⟩ : GameGroup).updates =
      (["0100ABCDEF000000", "0100ABCDEF000800"].map
        (fun t => (entryOf (scanFold "rom" [c3x1, c3x2]).raw t).updates)).flatten ∧
    (⟨some c3x1, [c3x2], [], "GameX"⟩ : GameGroup).name = "GameX" := by
  obtain ⟨hu, -, hn, -⟩ :=
    c3_theorem (scanFold "rom" [c3x1, c3x2]).raw "GameX"
      ["0100ABCDEF000000", "0100ABCDEF000800"] (by decide)
      ⟨some c3x1, [c3x2], [], "GameX"⟩ rfl
  exact ⟨hu, hn⟩

/-! ## C4 — post-resolution group invariants -/

/-- Counterexample for C4: in the returned mapping, group
`0177777777777800` keeps two update files, and group `0123456789ABC000`
has base `c4fa` (10 bytes) although the base-classified `c4fb`
(99 bytes) shares the same base identifier. -/
theorem c4_counterexample :
    scanDirectory "rom" [c4u1, c4u2, c4fa, c4fb] = .ok c4out ∧
    (lookupA c4out "0177777777777800").map (fun g => g.updates.length) =
      some 2 ∧
    (lookupA c4out "0123456789ABC000").map GameGroup.base =
      some (some c4fa) ∧
    extract_title_id (filePath "rom" c4fb) = some "0123456789ABC400" ∧
    extract_base_title_id "0123456789ABC400" = "0123456789ABC000" ∧
    classifyFile (filePath "rom" c4fb) (fileName c4fb) = .base ∧
    c4fa.size = some 10 ∧ c4fb.size = some 99 :=
  ⟨rfl, rfl, rfl, rfl, rfl, rfl, rfl, rfl⟩

/-! ### Counting DLC paths through the scan (for the C4 theorem) -/

/-- `entryOf` on a head with the same key. -/
theorem entryOf_cons_self {k : String} {e : RawEntry}
    {t : List (String × RawEntry)} : entryOf ((k, e) :: t) k = e := by
  simp [entryOf, lookupA]

/-- `entryOf` on a head with a different key. -/
theorem entryOf_cons_ne {k0 k : String} {e : RawEntry}
    {t : List (String × RawEntry)} (h : k0 ≠ k) :
    entryOf ((k0, e) :: t) k = entryOf t k := by
  simp [entryOf, lookupA, h]

/-- `entryOf` after a write at the same key. -/
theorem entryOf_setA_self (m : List (String × RawEntry)) (k : String)
    (e : RawEntry) : entryOf (setA m k e) k = e := by
  simp [entryOf, lookupA_setA_self]

/-- `dlcCount` distributes over a head entry. -/
theorem dlcCount_cons (k : String) (e : RawEntry)
    (t : List (String × RawEntry)) (p : List String) :
    dlcCount ((k, e) :: t) p = cntEntry e p + dlcCount t p := by
  simp [dlcCount]

/-- A write raises `dlcCount` by at most what it adds to its own entry. -/
theorem dlcCount_setA_le {m : List (String × RawEntry)} {k : String}
    {e : RawEntry} {p : List String} {d : Nat}
    (h : cntEntry e p ≤ cntEntry (entryOf m k) p + d) :
    dlcCount (setA m k e) p ≤ dlcCount m p + d := by
  induction m with
  | nil =>
    simp only [setA, dlcCount_cons]
    have h0 : cntEntry (entryOf ([] : List (String × RawEntry)) k) p = 0 := by
      simp [entryOf, lookupA, cntEntry, freshEntry]
    rw [h0] at h
    simpa [dlcCount] using h
  | cons kv t ih =>
    obtain ⟨k0, e0⟩ := kv
    unfold setA
    by_cases h0 : k0 = k
    · rw [if_pos h0]
      subst h0
      rw [entryOf_cons_self] at h
      rw [dlcCount_cons, dlcCount_cons]
      omega
    · rw [if_neg h0]
      rw [entryOf_cons_ne h0] at h
      rw [dlcCount_cons, dlcCount_cons]
      have := ih h
      omega

/-- Classification adds the file to at most one DLC list. -/
theorem classifyEntry_cnt {e e1 : RawEntry} {f : RomFile} {isD isU : Bool}
    {p : List String} (h : classifyEntry e f isD isU = .ok e1) :
    cntEntry e1 p ≤ cntEntry e p + (if f.relParts = p then 1 else 0) := by
  unfold classifyEntry at h
  by_cases hd : isD = true
  · rw [if_pos hd] at h
    cases h
    unfold cntEntry
    simp only [List.map_append, List.count_append]
    have : ([f].map RomFile.relParts).count p = if f.relParts = p then 1 else 0 := by
      simp [List.count_singleton]
    rw [this]
  · rw [if_neg hd] at h
    by_cases hu : isU = true
    · rw [if_pos hu] at h
      cases h
      unfold cntEntry
      simp
    · rw [if_neg hu] at h
      have hgoal : ∀ e1' : RawEntry, e1'.dlcs = e.dlcs →
          cntEntry e1' p ≤ cntEntry e p + (if f.relParts = p then 1 else 0) := by
        intro e1' he'
        unfold cntEntry
        rw [he']
        omega
      cases hb : e.base with
      | none =>
        rw [hb] at h
        cases h
        exact hgoal _ rfl
      | some b =>
        rw [hb] at h
        replace h : (do
            let fs ← sizeE f
            let bs ← sizeE b
            if fs > bs then
              (Except.ok { e with base := some f } : Except Unit RawEntry)
            else Except.ok e) = Except.ok e1 := h
        cases hsz : sizeE f with
        | error er =>
          replace h : (Except.error er : Except Unit RawEntry) = .ok e1 := by
            rw [hsz] at h
            exact h
          cases h
        | ok fs =>
          cases hsz2 : sizeE b with
          | error er =>
            replace h : (Except.error er : Except Unit RawEntry) = .ok e1 := by
              rw [hsz, hsz2] at h
              exact h
            cases h
          | ok bs =>
            replace h : (if fs > bs then
                  (Except.ok { e with base := some f } : Except Unit RawEntry)
                else Except.ok e) = Except.ok e1 := by
              rw [hsz, hsz2] at h
              exact h
            by_cases hgt : fs > bs
            · rw [if_pos hgt] at h
              cases h
              exact hgoal _ rfl
            · rw [if_neg hgt] at h
              cases h
              exact hgoal _ rfl

/-- The first write of a loop iteration (entry creation) never changes
the DLC count. -/
theorem dlcCount_create_le (st : ScanSt) (k a b c : String) (p : List String) :
    dlcCount (setA st.raw k ((lookupA st.raw k).getD (freshEntry a b c))) p ≤
      dlcCount st.raw p := by
  have h := @dlcCount_setA_le st.raw k
      ((lookupA st.raw k).getD (freshEntry a b c)) p 0 ?_
  · simpa using h
  · cases hl : lookupA st.raw k with
    | some e => simp [entryOf, hl]
    | none => simp [freshEntry, cntEntry]

/-- One loop iteration raises the DLC count only by the processed
file's own path. -/
theorem processFile_cnt (root : String) (st : ScanSt) (f : RomFile)
    (p : List String) :
    dlcCount (processFile root st f).raw p ≤
      dlcCount st.raw p + (if f.relParts = p then 1 else 0) := by
  have second : ∀ (k a b c : String),
      (∀ e1, classifyEntry ((lookupA st.raw k).getD (freshEntry a b c)) f
          (is_dlc_file (filePath root f) (fileName f))
          (is_update_file (filePath root f) (fileName f)) = .ok e1 →
        dlcCount (setA (setA st.raw k ((lookupA st.raw k).getD (freshEntry a b c))) k e1) p ≤
          dlcCount st.raw p + (if f.relParts = p then 1 else 0)) := by
    intro k a b c e1 hcl
    have h2 := @dlcCount_setA_le
        (setA st.raw k ((lookupA st.raw k).getD (freshEntry a b c)))
        k e1 p (if f.relParts = p then 1 else 0) ?_
    · calc dlcCount (setA (setA st.raw k _) k e1) p
          ≤ dlcCount (setA st.raw k ((lookupA st.raw k).getD (freshEntry a b c))) p +
              (if f.relParts = p then 1 else 0) := h2
        _ ≤ dlcCount st.raw p + (if f.relParts = p then 1 else 0) := by
            have := dlcCount_create_le st k a b c p
            omega
    · rw [entryOf_setA_self]
      exact classifyEntry_cnt hcl
  simp only [processFile, fileBody]
  split
  · rename_i tid hx
    split
    · rename_i e1 hcl
      exact second tid _ _ _ e1 hcl
    · rename_i er hcl
      have := dlcCount_create_le st tid
        (gameNameOf (parentDirOf f) (fileName f) tid.data)
        (extract_base_title_id tid) (parentDirOf f) p
      simp only []
      omega
  · rename_i hx
    split
    · rename_i hpd
      split
      · rename_i e1 hcl
        exact second _ _ _ _ e1 hcl
      · rename_i er hcl
        have := dlcCount_create_le st ("DIR_" ++ parentDirOf f)
          (parentDirOf f) ("DIR_" ++ parentDirOf f) (parentDirOf f) p
        simp only []
        omega
    · simp

/-- The whole loop keeps every path's DLC count bounded by its
occurrence count in the scanned list. -/
theorem scanFold_cnt (root : String) :
    ∀ (files : List RomFile) (st0 : ScanSt) (p : List String),
      dlcCount ((files.foldl (processFile root) st0).raw) p ≤
        dlcCount st0.raw p + (files.map RomFile.relParts).count p := by
  intro files
  induction files with
  | nil =>
    intro st0 p
    simp
  | cons f rest ih =>
    intro st0 p
    rw [List.foldl_cons]
    have h1 := ih (processFile root st0 f) p
    have h2 := processFile_cnt root st0 f p
    have h3 : ((f :: rest).map RomFile.relParts).count p =
        (rest.map RomFile.relParts).count p +
          (if f.relParts = p then 1 else 0) := by
      simp only [List.map_cons, List.count_cons]
      by_cases hq : f.relParts = p
      · simp [hq]
      · simp [hq]
    omega

/-- Removing an entry takes away at least its own count. -/
theorem cnt_add_erase_le (m : List (String × RawEntry)) (t : String)
    (p : List String) :
    cntEntry (entryOf m t) p + dlcCount (eraseKey m t) p ≤ dlcCount m p := by
  induction m with
  | nil => simp [entryOf, lookupA, eraseKey, freshEntry, cntEntry, dlcCount]
  | cons kv rest ih =>
    obtain ⟨k0, e0⟩ := kv
    unfold eraseKey
    by_cases h0 : k0 = t
    · rw [if_pos h0]
      subst h0
      rw [entryOf_cons_self, dlcCount_cons]
    · rw [if_neg h0]
      rw [entryOf_cons_ne h0, dlcCount_cons, dlcCount_cons]
      omega

/-- Lookups at other keys ignore an erased entry. -/
theorem entryOf_eraseKey_ne {m : List (String × RawEntry)} {t t' : String}
    (h : t' ≠ t) : entryOf (eraseKey m t) t' = entryOf m t' := by
  induction m with
  | nil => rfl
  | cons kv rest ih =>
    obtain ⟨k0, e0⟩ := kv
    unfold eraseKey
    by_cases h0 : k0 = t
    · rw [if_pos h0]
      subst h0
      rw [entryOf_cons_ne (fun he => h he.symm)]
    · rw [if_neg h0]
      by_cases h1 : k0 = t'
      · subst h1
        rw [entryOf_cons_self, entryOf_cons_self]
      · rw [entryOf_cons_ne h1, entryOf_cons_ne h1]
        exact ih

/-- Distinct ids own disjoint shares of the global DLC count. -/
theorem sum_cntEntry_le (p : List String) :
    ∀ (tids : List String) (raw : List (String × RawEntry)), tids.Nodup →
      (tids.map (fun t => cntEntry (entryOf raw t) p)).sum ≤
        dlcCount raw p := by
  intro tids
  induction tids with
  | nil =>
    intro raw h
    simp
  | cons t rest ih =>
    intro raw h
    rw [List.map_cons, List.sum_cons]
    have hnd := List.nodup_cons.mp h
    have hrest : (rest.map (fun t' => cntEntry (entryOf raw t') p)).sum =
        (rest.map (fun t' => cntEntry (entryOf (eraseKey raw t) t') p)).sum := by
      apply congrArg
      apply List.map_congr_left
      intro x hx
      have hxt : x ≠ t := by
        intro he
        subst he
        exact hnd.1 hx
      rw [entryOf_eraseKey_ne hxt]
    rw [hrest]
    have h1 := ih (eraseKey raw t) hnd.2
    have h2 := cnt_add_erase_le raw t p
    omega

/-- One loop iteration keeps the `raw_files` keys distinct. -/
theorem processFile_keys (root : String) (st : ScanSt) (f : RomFile)
    (h : (st.raw.map Prod.fst).Nodup) :
    ((processFile root st f).raw.map Prod.fst).Nodup := by
  simp only [processFile, fileBody]
  split
  · split
    · exact setA_keys_nodup (setA_keys_nodup h)
    · exact setA_keys_nodup h
  · split
    · split
      · exact setA_keys_nodup (setA_keys_nodup h)
      · exact setA_keys_nodup h
    · exact h

/-- The `base_id_map` write keeps keys distinct and values
duplicate-free. -/
theorem addToBaseIdMap_inv {bm : List (String × List String)}
    {bid tid : String} (h1 : (bm.map Prod.fst).Nodup)
    (h2 : ∀ kv ∈ bm, (kv.2 : List String).Nodup) :
    ((addToBaseIdMap bm bid tid).map Prod.fst).Nodup ∧
    ∀ kv ∈ addToBaseIdMap bm bid tid, (kv.2 : List String).Nodup := by
  unfold addToBaseIdMap
  by_cases hin : tid ∈ (lookupA bm bid).getD []
  · rw [if_pos hin]
    exact ⟨h1, h2⟩
  · rw [if_neg hin]
    refine ⟨setA_keys_nodup h1, ?_⟩
    intro kv hkv
    rcases mem_setA hkv with h | h
    · exact h2 kv h
    · subst h
      show ((lookupA bm bid).getD [] ++ [tid]).Nodup
      have hcur : ((lookupA bm bid).getD []).Nodup := by
        cases hl : lookupA bm bid with
        | none => simp
        | some L =>
          have := h2 (bid, L) (lookupA_mem hl)
          simpa using this
      rw [List.nodup_append]
      refine ⟨hcur, List.nodup_singleton _, ?_⟩
      intro a ha hax
      simp at hax
      subst hax
      exact hin ha

/-- One loop iteration keeps the `base_id_map` keys distinct and its
values duplicate-free. -/
theorem processFile_bm (root : String) (st : ScanSt) (f : RomFile)
    (h1 : (st.baseIdMap.map Prod.fst).Nodup)
    (h2 : ∀ kv ∈ st.baseIdMap, (kv.2 : List String).Nodup) :
    ((processFile root st f).baseIdMap.map Prod.fst).Nodup ∧
    ∀ kv ∈ (processFile root st f).baseIdMap, (kv.2 : List String).Nodup := by
  simp only [processFile, fileBody]
  split
  · split
    · exact addToBaseIdMap_inv h1 h2
    · exact addToBaseIdMap_inv h1 h2
  · split
    · split
      · by_cases hl : (lookupA st.baseIdMap ("DIR_" ++ parentDirOf f)).isSome = true
        · rw [if_pos hl]
          exact ⟨h1, h2⟩
        · rw [if_neg hl]
          refine ⟨setA_keys_nodup h1, ?_⟩
          intro kv hkv
          rcases mem_setA hkv with h | h
          · exact h2 kv h
          · subst h
            simp
      · exact ⟨h1, h2⟩
    · exact ⟨h1, h2⟩

/-- The invariants of the whole loop: distinct `raw_files` keys,
distinct `base_id_map` keys, duplicate-free `base_id_map` values. -/
theorem scanFold_inv (root : String) :
    ∀ (files : List RomFile) (st0 : ScanSt),
      (st0.raw.map Prod.fst).Nodup →
      (st0.baseIdMap.map Prod.fst).Nodup →
      (∀ kv ∈ st0.baseIdMap, (kv.2 : List String).Nodup) →
      ((files.foldl (processFile root) st0).raw.map Prod.fst).Nodup ∧
      ((files.foldl (processFile root) st0).baseIdMap.map Prod.fst).Nodup ∧
      ∀ kv ∈ (files.foldl (processFile root) st0).baseIdMap,
        (kv.2 : List String).Nodup := by
  intro files
  induction files with
  | nil =>
    intro st0 ha hb hc
    exact ⟨ha, hb, hc⟩
  | cons f rest ih =>
    intro st0 ha hb hc
    rw [List.foldl_cons]
    obtain ⟨hb', hc'⟩ := processFile_bm root st0 f hb hc
    exact ih (processFile root st0 f) (processFile_keys root st0 f ha) hb' hc'

/-- Values of `dir_groups` are duplicate-free and non-empty when the
`raw_files` keys are distinct. -/
theorem dirGroups_values {raw : List (String × RawEntry)}
    (hk : (raw.map Prod.fst).Nodup) :
    ∀ kv ∈ dirGroups raw, (kv.2 : List String).Nodup ∧ kv.2 ≠ [] := by
  have main : ∀ (m : List (String × RawEntry))
      (acc : List (String × List String)),
      (m.map Prod.fst).Nodup →
      (∀ kv ∈ acc, (kv.2 : List String).Nodup ∧ kv.2 ≠ [] ∧
        ∀ x ∈ kv.2, x ∉ m.map Prod.fst) →
      ∀ kv ∈ m.foldl
        (fun acc kv =>
          if kv.2.dir ≠ "" && !(".".data.isPrefixOf kv.2.dir.data) then
            pushToKey acc kv.2.dir kv.1
          else acc) acc,
        (kv.2 : List String).Nodup ∧ kv.2 ≠ [] := by
    intro m
    induction m with
    | nil =>
      intro acc hm hacc kv hkv
      exact ⟨(hacc kv hkv).1, (hacc kv hkv).2.1⟩
    | cons ke rest ih =>
      intro acc hm hacc kv hkv
      rw [List.foldl_cons] at hkv
      simp only [List.map_cons, List.nodup_cons] at hm
      refine ih _ hm.2 ?_ kv hkv
      intro kv' hkv'
      by_cases hcond : (ke.2.dir ≠ "" && !(".".data.isPrefixOf ke.2.dir.data)) = true
      · rw [if_pos hcond] at hkv'
        unfold pushToKey at hkv'
        rcases mem_setA hkv' with h | h
        · obtain ⟨hn, hne, hdisj⟩ := hacc kv' h
          exact ⟨hn, hne, fun x hx hmem => hdisj x hx (List.mem_cons_of_mem _ hmem)⟩
        · subst h
          have hcur : ((lookupA acc ke.2.dir).getD []).Nodup ∧
              ∀ x ∈ (lookupA acc ke.2.dir).getD [], x ∉ (ke :: rest).map Prod.fst := by
            cases hl : lookupA acc ke.2.dir with
            | none => simp
            | some L =>
              obtain ⟨hn, -, hdisj⟩ := hacc (ke.2.dir, L) (lookupA_mem hl)
              exact ⟨hn, hdisj⟩
          refine ⟨?_, by simp, ?_⟩
          · rw [List.nodup_append]
            refine ⟨hcur.1, List.nodup_singleton _, ?_⟩
            intro a ha hax
            simp at hax
            subst hax
            exact hcur.2 ke.1 ha (by simp)
          · intro x hx hmem
            rcases List.mem_append.mp hx with hx | hx
            · exact hcur.2 x hx (List.mem_cons_of_mem _ hmem)
            · simp at hx
              subst hx
              exact hm.1 hmem
      · rw [if_neg hcond] at hkv'
        obtain ⟨hn, hne, hdisj⟩ := hacc kv' hkv'
        exact ⟨hn, hne, fun x hx hmem => hdisj x hx (List.mem_cons_of_mem _ hmem)⟩
  intro kv hkv
  exact main raw [] hk (by simp) kv hkv

/-- Path-count of pooled DLC lists is the per-id sum. -/
theorem count_flatten_cnt (raw : List (String × RawEntry))
    (tids : List String) (p : List String) :
    (((tids.map (fun t => (entryOf raw t).dlcs)).flatten).map
        RomFile.relParts).count p =
      (tids.map (fun t => cntEntry (entryOf raw t) p)).sum := by
  rw [List.map_flatten, List.count_flatten]
  simp only [List.map_map]
  rfl

/-- Duplicate-freedom is exactly an everywhere-at-most-one count (stated
over the `BEq` instance used throughout this file). -/
theorem nodup_iff_count {α : Type} [BEq α] [LawfulBEq α] :
    ∀ l : List α, l.Nodup ↔ ∀ a, l.count a ≤ 1 := by
  intro l
  induction l with
  | nil => simp
  | cons x t ih =>
    rw [List.nodup_cons]
    constructor
    · rintro ⟨hx, hnd⟩ a
      rw [List.count_cons]
      by_cases hax : (x == a) = true
      · have hxa : x = a := eq_of_beq hax
        subst hxa
        have h0 : t.count x = 0 := List.count_eq_zero.mpr hx
        simp [hax, h0]
      · simp [hax]
        exact ih.mp hnd a
    · intro h
      refine ⟨?_, ih.mpr fun a => ?_⟩
      · intro hmem
        have := h x
        rw [List.count_cons] at this
        simp at this
        exact absurd hmem (List.count_eq_zero.mp this)
      · have := h a
        rw [List.count_cons] at this
        omega

/-- The directory pass only emits groups whose DLC path-counts respect
the global bound. -/
theorem dirFold_dlc_bound {raw : List (String × RawEntry)}
    (hcnt : ∀ p : List String, dlcCount raw p ≤ 1) :
    ∀ (ds : List (String × List String)) (gf0 gf : List (String × GameGroup)),
      (∀ kv ∈ ds, (kv.2 : List String).Nodup) →
      (∀ kv ∈ gf0, ∀ p,
        ((kv.2 : GameGroup).dlcs.map RomFile.relParts).count p ≤ 1) →
      ds.foldlM (dirStep raw) gf0 = .ok gf →
      ∀ kv ∈ gf, ∀ p,
        ((kv.2 : GameGroup).dlcs.map RomFile.relParts).count p ≤ 1 := by
  intro ds
  induction ds with
  | nil =>
    intro gf0 gf hds h0 hok
    cases hok
    exact h0
  | cons kv rest ih =>
    intro gf0 gf hds h0 hok
    rw [List.foldlM_cons] at hok
    cases hstep : dirStep raw gf0 kv with
    | error e => rw [hstep] at hok; cases hok
    | ok gf1 =>
      rw [hstep] at hok
      refine ih gf1 gf (fun kv' h => hds kv' (List.mem_cons_of_mem _ h)) ?_ hok
      intro kv' hkv' p
      unfold dirStep at hstep
      split at hstep
      · cases hstep
      · rename_i t heqt
        have h1 := Except.ok.inj hstep
        rw [← h1] at hkv'
        rcases mem_setA hkv' with h | h
        · exact h0 kv' h p
        · subst h
          show (((⟨(entryOf raw t).base, (entryOf raw t).updates,
              (entryOf raw t).dlcs, (entryOf raw t).name⟩ : GameGroup)).dlcs.map
                RomFile.relParts).count p ≤ 1
          dsimp only
          have h2 := cnt_add_erase_le raw t p
          have h3 := hcnt p
          unfold cntEntry at h2
          omega
      · rename_i t1 t2 restt heqk
        cases hmg : mergeDirTids raw kv.1 (t1 :: t2 :: restt) with
        | error e =>
          replace hstep : (Except.error e :
              Except Unit (List (String × GameGroup))) = .ok gf1 := by
            rw [hmg] at hstep
            exact hstep
          cases hstep
        | ok g =>
          replace hstep : (Except.ok (setA gf0 ("DIR_" ++ kv.1) g) :
              Except Unit (List (String × GameGroup))) = .ok gf1 := by
            rw [hmg] at hstep
            exact hstep
          rw [← Except.ok.inj hstep] at hkv'
          rcases mem_setA hkv' with h | h
          · exact h0 kv' h p
          · subst h
            obtain ⟨-, hd, -, -⟩ :=
              mergeFold_parts (t1 :: t2 :: restt) ⟨none, [], [], kv.1⟩ g hmg
          -- hd : g.dlcs = [] ++ flatten ...
            show ((g.dlcs.map RomFile.relParts).count p) ≤ 1
            rw [hd]
            simp only [List.nil_append]
            rw [count_flatten_cnt]
            have htids : (t1 :: t2 :: restt).Nodup := by
              have := hds kv (List.mem_cons_self _ _)
              rw [heqk] at this
              exact this
            have := sum_cntEntry_le p (t1 :: t2 :: restt) raw htids
            have h3 := hcnt p
            omega

/-- The base-id pass only emits groups whose DLC path-counts respect the
global bound. -/
theorem baseFold_dlc_bound {raw : List (String × RawEntry)}
    (hcnt : ∀ p : List String, dlcCount raw p ≤ 1) :
    ∀ (bm : List (String × List String)) (gf0 : List (String × GameGroup)),
      (∀ kv ∈ bm, (kv.2 : List String).Nodup) →
      (∀ kv ∈ gf0, ∀ p,
        ((kv.2 : GameGroup).dlcs.map RomFile.relParts).count p ≤ 1) →
      ∀ kv ∈ basePass raw bm gf0, ∀ p,
        ((kv.2 : GameGroup).dlcs.map RomFile.relParts).count p ≤ 1 := by
  intro bm
  induction bm with
  | nil =>
    intro gf0 hbm h0 kv hkv
    exact h0 kv hkv
  | cons kv0 rest ih =>
    intro gf0 hbm h0 kv hkv
    show ∀ p, _
    have hstep : basePass raw (kv0 :: rest) gf0 =
        basePass raw rest (baseStep raw gf0 kv0) := by
      simp [basePass]
    rw [hstep] at hkv
    refine ih (baseStep raw gf0 kv0)
      (fun kv' h => hbm kv' (List.mem_cons_of_mem _ h)) ?_ kv hkv
    intro kv' hkv' p
    unfold baseStep at hkv'
    by_cases hsk : ("DIR_".data.isPrefixOf kv0.1.data ||
        (lookupA gf0 kv0.1).isSome) = true
    · rw [if_pos hsk] at hkv'
      exact h0 kv' hkv' p
    · rw [if_neg hsk] at hkv'
      cases hp : pickMainId raw kv0.2 with
      | none =>
        rw [hp] at hkv'
        exact h0 kv' hkv' p
      | some mv =>
        obtain ⟨mid, bf⟩ := mv
        rw [hp] at hkv'
        rcases mem_setA hkv' with h | h
        · exact h0 kv' h p
        · subst h
          obtain ⟨-, hd, -, -⟩ := poolFold_parts raw kv0.2
            ⟨bf, [], [], (entryOf raw mid).name⟩
          show (((poolRelated raw _ kv0.2)).dlcs.map RomFile.relParts).count p ≤ 1
          rw [hd]
          simp only [List.nil_append]
          rw [count_flatten_cnt]
          have htids : (kv0.2 : List String).Nodup :=
            hbm kv0 (List.mem_cons_self _ _)
          have := sum_cntEntry_le p kv0.2 raw htids
          have h3 := hcnt p
          omega

/-- C4 (amended): on a scan whose input paths are pairwise distinct,
every group of the returned mapping has a duplicate-free DLC path list.
(The other two conjuncts of the original claim fail: see the
counterexample — updates may stay plural, and a base-identifier group's
base is chosen by `000`-suffix priority, not by size.) -/
theorem c4_theorem (root : String) (files : List RomFile)
    (out : List (String × GameGroup))
    (hnd : (files.map RomFile.relParts).Nodup)
    (hok : scanDirectory root files = .ok out) :
    ∀ kv ∈ out, ((kv.2 : GameGroup).dlcs.map RomFile.relParts).Nodup := by
  have hcnt : ∀ p, dlcCount (scanFold root files).raw p ≤ 1 := by
    intro p
    have h := scanFold_cnt root files ⟨[], []⟩ p
    have h2 : (files.map RomFile.relParts).count p ≤ 1 :=
      (nodup_iff_count _).mp hnd p
    have h0 : dlcCount (⟨[], []⟩ : ScanSt).raw p = 0 := by simp [dlcCount]
    unfold scanFold
    omega
  obtain ⟨hraw, hbmk, hbmv⟩ :=
    scanFold_inv root files ⟨[], []⟩ (by simp) (by simp) (by simp)
  simp only [scanDirectory] at hok
  cases hdp : dirPass (scanFold root files).raw with
  | error e => rw [hdp] at hok; cases hok
  | ok gf =>
    rw [hdp] at hok
    cases hok
    intro kv hkv
    have hds : ∀ kv ∈ dirGroups (scanFold root files).raw,
        (kv.2 : List String).Nodup :=
      fun kv h => (dirGroups_values hraw kv h).1
    have hgf := dirFold_dlc_bound hcnt (dirGroups (scanFold root files).raw)
      [] gf hds (by simp) hdp
    have hout := baseFold_dlc_bound hcnt (scanFold root files).baseIdMap gf
      hbmv hgf kv hkv
    exact (nodup_iff_count _).mpr hout

/-- Witness for C4 on the counterexample snapshot: the group that keeps
two updates still has duplicate-free DLC paths. -/
theorem c4_witness :
    (((⟨none, [c4u1, c4u2], [], "Game_0177777777777800"⟩ :
        GameGroup)).dlcs.map RomFile.relParts).Nodup :=
  c4_theorem "rom" [c4u1, c4u2, c4fa, c4fb] c4out (by decide) rfl
    ("0177777777777800", ⟨none, [c4u1, c4u2], [], "Game_0177777777777800"⟩)
    (by simp [c4out])

/-! ## C8 — exception handling of the scan -/

/-- Counterexample for C8: `c8fA`'s metadata is unreadable; its loop
iteration never needs the size (it becomes its entry's base unseen), but
the directory-merge phase then compares sizes outside any `try`, so the
stat failure on this single file aborts the whole scan instead of being
recovered. -/
theorem c8_counterexample :
    scanDirectory "rom" [c8fA, c8fB] = .error () ∧ c8fA.size = none ∧
    c8fB.size = some 5 :=
  ⟨rfl, rfl, rfl⟩

/-! ### Tracking stored files through the scan (for the C8 theorem) -/

/-- `storedFiles` distributes over a head entry. -/
theorem storedFiles_cons (k : String) (e : RawEntry)
    (t : List (String × RawEntry)) :
    storedFiles ((k, e) :: t) = storedOf e ++ storedFiles t := by
  simp [storedFiles]

/-- A member entry's files are among the stored files. -/
theorem storedOf_mem_subset {m : List (String × RawEntry)} {k : String}
    {e : RawEntry} (hm : (k, e) ∈ m) : ∀ x ∈ storedOf e, x ∈ storedFiles m := by
  induction m with
  | nil => cases hm
  | cons kv t ih =>
    obtain ⟨k0, e0⟩ := kv
    intro x hx
    rw [storedFiles_cons]
    rcases List.mem_cons.mp hm with h | h
    · cases h
      exact List.mem_append.mpr (Or.inl hx)
    · exact List.mem_append.mpr (Or.inr (ih h x hx))

/-- A looked-up entry's files are among the stored files. -/
theorem storedOf_entryOf_subset (m : List (String × RawEntry)) (t : String) :
    ∀ x ∈ storedOf (entryOf m t), x ∈ storedFiles m := by
  cases hl : lookupA m t with
  | none => simp [entryOf, hl, storedOf, freshEntry]
  | some e =>
    have := lookupA_mem hl
    simp only [entryOf, hl, Option.getD_some]
    exact storedOf_mem_subset this

/-- Stored files after a write come from the new entry or the old map. -/
theorem storedFiles_setA_subset (m : List (String × RawEntry)) (k : String)
    (e : RawEntry) :
    ∀ x ∈ storedFiles (setA m k e), x ∈ storedOf e ∨ x ∈ storedFiles m := by
  induction m with
  | nil =>
    intro x hx
    simp only [setA, storedFiles_cons] at hx
    rcases List.mem_append.mp hx with h | h
    · exact Or.inl h
    · simp [storedFiles] at h
  | cons kv t ih =>
    obtain ⟨k0, e0⟩ := kv
    intro x hx
    unfold setA at hx
    by_cases h0 : k0 = k
    · rw [if_pos h0] at hx
      rw [storedFiles_cons] at hx
      rcases List.mem_append.mp hx with h | h
      · exact Or.inl h
      · exact Or.inr (by rw [storedFiles_cons]; exact List.mem_append.mpr (Or.inr h))
    · rw [if_neg h0] at hx
      rw [storedFiles_cons] at hx
      rcases List.mem_append.mp hx with h | h
      · exact Or.inr (by rw [storedFiles_cons]; exact List.mem_append.mpr (Or.inl h))
      · rcases ih x h with h' | h'
        · exact Or.inl h'
        · exact Or.inr (by rw [storedFiles_cons]; exact List.mem_append.mpr (Or.inr h'))

/-- Classification stores the file itself and nothing else new. -/
theorem classifyEntry_stored {e e1 : RawEntry} {f : RomFile} {isD isU : Bool}
    (h : classifyEntry e f isD isU = .ok e1) :
    ∀ x ∈ storedOf e1, x = f ∨ x ∈ storedOf e := by
  unfold classifyEntry at h
  by_cases hd : isD = true
  · rw [if_pos hd] at h
    cases h
    intro x hx
    simp only [storedOf, List.mem_append, List.mem_singleton] at hx ⊢
    tauto
  · rw [if_neg hd] at h
    by_cases hu : isU = true
    · rw [if_pos hu] at h
      cases h
      intro x hx
      simp only [storedOf, List.mem_append, List.mem_singleton] at hx ⊢
      tauto
    · rw [if_neg hu] at h
      have hrepl : ∀ x ∈ storedOf { e with base := some f }, x = f ∨ x ∈ storedOf e := by
        intro x hx
        simp only [storedOf, List.mem_append, Option.toList_some,
          List.mem_singleton] at hx ⊢
        tauto
      cases hb : e.base with
      | none =>
        rw [hb] at h
        cases h
        exact hrepl
      | some b =>
        rw [hb] at h
        replace h : (do
            let fs ← sizeE f
            let bs ← sizeE b
            if fs > bs then
              (Except.ok { e with base := some f } : Except Unit RawEntry)
            else Except.ok e) = Except.ok e1 := h
        cases hsz : sizeE f with
        | error er =>
          replace h : (Except.error er : Except Unit RawEntry) = .ok e1 := by
            rw [hsz] at h
            exact h
          cases h
        | ok fs =>
          cases hsz2 : sizeE b with
          | error er =>
            replace h : (Except.error er : Except Unit RawEntry) = .ok e1 := by
              rw [hsz, hsz2] at h
              exact h
            cases h
          | ok bs =>
            replace h : (if fs > bs then
                  (Except.ok { e with base := some f } : Except Unit RawEntry)
                else Except.ok e) = Except.ok e1 := by
              rw [hsz, hsz2] at h
              exact h
            by_cases hgt : fs > bs
            · rw [if_pos hgt] at h
              cases h
              exact hrepl
            · rw [if_neg hgt] at h
              cases h
              exact fun x hx => Or.inr hx

/-- One loop iteration stores at most the processed file, and stores it
only when the iteration did not raise. -/
theorem processFile_stored (root : String) (st : ScanSt) (f : RomFile) :
    ∀ x ∈ storedFiles (processFile root st f).raw,
      (x = f ∧ (fileBody root st f).2 = false) ∨ x ∈ storedFiles st.raw := by
  have hget : ∀ (k a b c : String) (x : RomFile),
      x ∈ storedOf ((lookupA st.raw k).getD (freshEntry a b c)) →
      x ∈ storedFiles st.raw := by
    intro k a b c x hx
    cases hl : lookupA st.raw k with
    | none =>
      rw [hl] at hx
      simp [storedOf, freshEntry] at hx
    | some e =>
      rw [hl] at hx
      exact storedOf_mem_subset (lookupA_mem hl) x hx
  have hcreate : ∀ (k a b c : String) (x : RomFile),
      x ∈ storedFiles (setA st.raw k ((lookupA st.raw k).getD (freshEntry a b c))) →
      x ∈ storedFiles st.raw := by
    intro k a b c x hx
    rcases storedFiles_setA_subset st.raw k _ x hx with h | h
    · exact hget k a b c x h
    · exact h
  have hsecond : ∀ (k a b c : String) (e1 : RawEntry) (x : RomFile),
      classifyEntry ((lookupA st.raw k).getD (freshEntry a b c)) f
          (is_dlc_file (filePath root f) (fileName f))
          (is_update_file (filePath root f) (fileName f)) = .ok e1 →
      x ∈ storedFiles (setA (setA st.raw k ((lookupA st.raw k).getD (freshEntry a b c))) k e1) →
      x = f ∨ x ∈ storedFiles st.raw := by
    intro k a b c e1 x hcl hx
    rcases storedFiles_setA_subset _ k e1 x hx with h | h
    · rcases classifyEntry_stored hcl x h with h' | h'
      · exact Or.inl h'
      · exact Or.inr (hget k a b c x h')
    · exact Or.inr (hcreate k a b c x h)
  simp only [processFile, fileBody]
  split
  · rename_i tid hx
    split
    · rename_i e1 hcl
      intro x hxm
      rcases hsecond tid _ _ _ e1 x hcl hxm with h | h
      · exact Or.inl ⟨h, rfl⟩
      · exact Or.inr h
    · intro x hxm
      exact Or.inr (hcreate tid _ _ _ x hxm)
  · split
    · split
      · rename_i e1 hcl
        intro x hxm
        rcases hsecond _ _ _ _ e1 x hcl hxm with h | h
        · exact Or.inl ⟨h, rfl⟩
        · exact Or.inr h
      · intro x hxm
        exact Or.inr (hcreate _ _ _ _ x hxm)
    · intro x hxm
      exact Or.inr hxm

/-- The whole loop only ever stores scanned files. -/
theorem scanFoldFrom_stored (root : String) :
    ∀ (l : List RomFile) (st0 : ScanSt) (x : RomFile),
      x ∈ storedFiles ((l.foldl (processFile root) st0).raw) →
      x ∈ l ∨ x ∈ storedFiles st0.raw := by
  intro l
  induction l with
  | nil =>
    intro st0 x hx
    exact Or.inr hx
  | cons f rest ih =>
    intro st0 x hx
    rw [List.foldl_cons] at hx
    rcases ih (processFile root st0 f) x hx with h | h
    · exact Or.inl (List.mem_cons_of_mem f h)
    · rcases processFile_stored root st0 f x h with ⟨he, _⟩ | h'
      · exact Or.inl (by rw [he]; exact List.mem_cons_self f rest)
      · exact Or.inr h'

/-- When one iteration raises, nothing of that file is ever stored: the
final `raw_files` holds only files from the other scanned entries. -/
theorem scanFold_skip (root : String) (l1 l2 : List RomFile) (g : RomFile)
    (herr : (fileBody root (scanFold root l1) g).2 = true) :
    ∀ x ∈ storedFiles (scanFold root (l1 ++ g :: l2)).raw,
      x ∈ l1 ∨ x ∈ l2 := by
  intro x hx
  have heq : scanFold root (l1 ++ g :: l2) =
      l2.foldl (processFile root) (processFile root (scanFold root l1) g) := by
    unfold scanFold
    rw [List.foldl_append, List.foldl_cons]
  rw [heq] at hx
  rcases scanFoldFrom_stored root l2 _ x hx with h | h
  · exact Or.inr h
  · rcases processFile_stored root (scanFold root l1) g x h with ⟨_, hf⟩ | h'
    · rw [herr] at hf
      cases hf
    · rcases scanFoldFrom_stored root l1 ⟨[], []⟩ x h' with h'' | h''
      · exact Or.inl h''
      · simp [storedFiles] at h''

/-- Updates are among an entry's stored files. -/
theorem mem_storedOf_of_updates {e : RawEntry} {x : RomFile}
    (hx : x ∈ e.updates) : x ∈ storedOf e := by
  simp only [storedOf, List.mem_append]
  tauto

/-- DLCs are among an entry's stored files. -/
theorem mem_storedOf_of_dlcs {e : RawEntry} {x : RomFile}
    (hx : x ∈ e.dlcs) : x ∈ storedOf e := by
  simp only [storedOf, List.mem_append]
  tauto

/-- A base is among an entry's stored files (list form). -/
theorem mem_storedOf_of_baseMem {e : RawEntry} {x : RomFile}
    (hx : x ∈ e.base.toList) : x ∈ storedOf e := by
  simp only [storedOf, List.mem_append]
  tauto

/-- A base is among an entry's stored files. -/
theorem mem_storedOf_of_base {e : RawEntry} {x : RomFile}
    (hx : e.base = some x) : x ∈ storedOf e := by
  apply mem_storedOf_of_baseMem
  rw [hx]
  simp

/-- Pooled update lists only hold stored files. -/
theorem flatten_updates_stored (raw : List (String × RawEntry))
    (ts : List String) :
    ∀ x ∈ (ts.map (fun t => (entryOf raw t).updates)).flatten,
      x ∈ storedFiles raw := by
  intro x hx
  rw [List.mem_flatten] at hx
  obtain ⟨l, hl, hxl⟩ := hx
  rw [List.mem_map] at hl
  obtain ⟨t, ht, rfl⟩ := hl
  exact storedOf_entryOf_subset raw t x (mem_storedOf_of_updates hxl)

/-- Pooled DLC lists only hold stored files. -/
theorem flatten_dlcs_stored (raw : List (String × RawEntry))
    (ts : List String) :
    ∀ x ∈ (ts.map (fun t => (entryOf raw t).dlcs)).flatten,
      x ∈ storedFiles raw := by
  intro x hx
  rw [List.mem_flatten] at hx
  obtain ⟨l, hl, hxl⟩ := hx
  rw [List.mem_map] at hl
  obtain ⟨t, ht, rfl⟩ := hl
  exact storedOf_entryOf_subset raw t x (mem_storedOf_of_dlcs hxl)

/-- One directory-pass step only produces groups of stored files. -/
theorem dirStep_stored {raw : List (String × RawEntry)}
    {gf0 gf1 : List (String × GameGroup)} {kv : String × List String}
    (hinv : ∀ kv' ∈ gf0, ∀ x ∈ groupFiles kv'.2, x ∈ storedFiles raw)
    (h : dirStep raw gf0 kv = .ok gf1) :
    ∀ kv' ∈ gf1, ∀ x ∈ groupFiles kv'.2, x ∈ storedFiles raw := by
  unfold dirStep at h
  cases hks : kv.2 with
  | nil =>
    rw [hks] at h
    replace h : (Except.error () : Except Unit (List (String × GameGroup))) =
        .ok gf1 := h
    cases h
  | cons t rest =>
    cases rest with
    | nil =>
      rw [hks] at h
      replace h : (Except.ok (setA gf0 t
          ⟨(entryOf raw t).base, (entryOf raw t).updates, (entryOf raw t).dlcs,
            (entryOf raw t).name⟩) :
          Except Unit (List (String × GameGroup))) = .ok gf1 := h
      cases h
      intro kv' hkv' x hx
      rcases mem_setA hkv' with hm | he
      · exact hinv kv' hm x hx
      · subst he
        exact storedOf_entryOf_subset raw t x hx
    | cons t2 rest2 =>
      rw [hks] at h
      replace h : Except.bind (mergeDirTids raw kv.1 (t :: t2 :: rest2))
          (fun g => Except.ok (setA gf0 ("DIR_" ++ kv.1) g)) = .ok gf1 := h
      cases hm : mergeDirTids raw kv.1 (t :: t2 :: rest2) with
      | error e =>
        rw [hm] at h
        replace h : (Except.error e : Except Unit (List (String × GameGroup))) =
            .ok gf1 := h
        cases h
      | ok g =>
        rw [hm] at h
        replace h : (Except.ok (setA gf0 ("DIR_" ++ kv.1) g) :
            Except Unit (List (String × GameGroup))) = .ok gf1 := h
        cases h
        obtain ⟨hu, hd, _, hb⟩ :=
          mergeFold_parts (t :: t2 :: rest2) ⟨none, [], [], kv.1⟩ g hm
        intro kv' hkv' x hx
        rcases mem_setA hkv' with hmem | he
        · exact hinv kv' hmem x hx
        · subst he
          simp only [groupFiles, List.mem_append] at hx
          rcases hx with (hx | hx) | hx
          · rcases hb with hb | ⟨t', ht', hb⟩
            · rw [hb] at hx
              simp at hx
            · rw [hb] at hx
              exact storedOf_entryOf_subset raw t' x (mem_storedOf_of_baseMem hx)
          · rw [hu] at hx
            rcases List.mem_append.mp hx with hx | hx
            · exact absurd hx (List.not_mem_nil x)
            · exact flatten_updates_stored raw _ x hx
          · rw [hd] at hx
            rcases List.mem_append.mp hx with hx | hx
            · exact absurd hx (List.not_mem_nil x)
            · exact flatten_dlcs_stored raw _ x hx

/-- The directory pass only produces groups of stored files. -/
theorem dirFold_stored {raw : List (String × RawEntry)} :
    ∀ (ds : List (String × List String)) (gf0 gf : List (String × GameGroup)),
      (∀ kv ∈ gf0, ∀ x ∈ groupFiles kv.2, x ∈ storedFiles raw) →
      ds.foldlM (dirStep raw) gf0 = .ok gf →
      ∀ kv ∈ gf, ∀ x ∈ groupFiles kv.2, x ∈ storedFiles raw := by
  intro ds
  induction ds with
  | nil =>
    intro gf0 gf h hok
    cases hok
    exact h
  | cons kv rest ih =>
    intro gf0 gf h hok
    rw [List.foldlM_cons] at hok
    cases hstep : dirStep raw gf0 kv with
    | error e =>
      rw [hstep] at hok
      cases hok
    | ok gf1 =>
      rw [hstep] at hok
      replace hok : rest.foldlM (dirStep raw) gf1 = .ok gf := hok
      exact ih gf1 gf (dirStep_stored h hstep) hok

/-- The main id chosen by the base-id pass carries either no base file or
the base of its own entry. -/
theorem pickMainId_base {raw : List (String × RawEntry)} {rids : List String}
    {mid : String} {bf : Option RomFile}
    (h : pickMainId raw rids = some (mid, bf)) :
    bf = none ∨ bf = (entryOf raw mid).base := by
  unfold pickMainId at h
  split at h
  · rename_i t ht
    simp only [Option.some.injEq, Prod.mk.injEq] at h
    obtain ⟨h1, h2⟩ := h
    exact Or.inr (h1 ▸ h2.symm)
  · split at h
    · rename_i t ht
      simp only [Option.some.injEq, Prod.mk.injEq] at h
      obtain ⟨h1, h2⟩ := h
      exact Or.inr (h1 ▸ h2.symm)
    · split at h
      · rename_i t rest
        simp only [Option.some.injEq, Prod.mk.injEq] at h
        exact Or.inl h.2.symm
      · cases h

/-- One base-id-pass step only produces groups of stored files. -/
theorem baseStep_stored {raw : List (String × RawEntry)}
    {gf : List (String × GameGroup)} {kv : String × List String}
    (hinv : ∀ kv' ∈ gf, ∀ x ∈ groupFiles kv'.2, x ∈ storedFiles raw) :
    ∀ kv' ∈ baseStep raw gf kv, ∀ x ∈ groupFiles kv'.2, x ∈ storedFiles raw := by
  unfold baseStep
  by_cases hsk : ("DIR_".data.isPrefixOf kv.1.data || (lookupA gf kv.1).isSome) = true
  · rw [if_pos hsk]
    exact hinv
  · rw [if_neg hsk]
    cases hpm : pickMainId raw kv.2 with
    | none => exact hinv
    | some mb =>
      obtain ⟨mid, bf⟩ := mb
      intro kv' hkv' x hx
      replace hkv' : kv' ∈ setA gf kv.1
          (poolRelated raw ⟨bf, [], [], (entryOf raw mid).name⟩ kv.2) := hkv'
      rcases mem_setA hkv' with hm | he
      · exact hinv kv' hm x hx
      · subst he
        obtain ⟨hu, hd, _, hb⟩ :=
          poolFold_parts raw kv.2 ⟨bf, [], [], (entryOf raw mid).name⟩
        simp only [groupFiles, List.mem_append] at hx
        rcases hx with (hx | hx) | hx
        · rcases hb with hb | ⟨t', ht', hb⟩
          · rw [hb] at hx
            rcases pickMainId_base hpm with hbf | hbf
            · rw [hbf] at hx
              simp at hx
            · rw [hbf] at hx
              exact storedOf_entryOf_subset raw mid x (mem_storedOf_of_baseMem hx)
          · rw [hb] at hx
            exact storedOf_entryOf_subset raw t' x (mem_storedOf_of_baseMem hx)
        · rw [hu] at hx
          rcases List.mem_append.mp hx with hx | hx
          · exact absurd hx (List.not_mem_nil x)
          · exact flatten_updates_stored raw _ x hx
        · rw [hd] at hx
          rcases List.mem_append.mp hx with hx | hx
          · exact absurd hx (List.not_mem_nil x)
          · exact flatten_dlcs_stored raw _ x hx

/-- The base-id pass only produces groups of stored files. -/
theorem baseFold_stored {raw : List (String × RawEntry)} :
    ∀ (bm : List (String × List String)) (gf0 : List (String × GameGroup)),
      (∀ kv ∈ gf0, ∀ x ∈ groupFiles kv.2, x ∈ storedFiles raw) →
      ∀ kv ∈ basePass raw bm gf0, ∀ x ∈ groupFiles kv.2, x ∈ storedFiles raw := by
  intro bm
  induction bm with
  | nil =>
    intro gf0 h
    exact h
  | cons kv rest ih =>
    intro gf0 h
    exact ih (baseStep raw gf0 kv) (baseStep_stored h)

/-- Every file of every output group was stored by the per-file loop. -/
theorem scanDirectory_stored {root : String} {files : List RomFile}
    {out : List (String × GameGroup)}
    (h : scanDirectory root files = .ok out) :
    ∀ kv ∈ out, ∀ x ∈ groupFiles kv.2,
      x ∈ storedFiles (scanFold root files).raw := by
  simp only [scanDirectory] at h
  cases hdp : dirPass (scanFold root files).raw with
  | error e =>
    rw [hdp] at h
    cases h
  | ok gf =>
    rw [hdp] at h
    replace h : (Except.ok (basePass (scanFold root files).raw
        (scanFold root files).baseIdMap gf) :
        Except Unit (List (String × GameGroup))) = .ok out := h
    cases h
    apply baseFold_stored
    exact dirFold_stored (dirGroups (scanFold root files).raw) [] gf
      (fun kv hkv => absurd hkv (List.not_mem_nil kv)) hdp

/-- Readable metadata gives an actual size. -/
theorem sizeE_ok {f : RomFile} (h : f.size.isSome = true) :
    ∃ n, sizeE f = .ok n := by
  cases hs : f.size with
  | none =>
    rw [hs] at h
    cases h
  | some n =>
    exact ⟨n, by unfold sizeE; rw [hs]⟩

/-- Base merging never raises when both candidate bases have readable
sizes. -/
theorem mergeBaseE_ok {g : GameGroup} {b? : Option RomFile}
    (hb : ∀ b, b? = some b → b.size.isSome = true)
    (hg : ∀ b, g.base = some b → b.size.isSome = true) :
    ∃ g1, mergeBaseE g b? = .ok g1 := by
  cases hb' : b? with
  | none => exact ⟨g, rfl⟩
  | some b =>
    cases hg' : g.base with
    | none =>
      refine ⟨{ g with base := some b }, ?_⟩
      unfold mergeBaseE
      rw [hg']
    | some gb =>
      obtain ⟨bs, hbs⟩ := sizeE_ok (hb b hb')
      obtain ⟨gbs, hgbs⟩ := sizeE_ok (hg gb hg')
      refine ⟨if bs > gbs then { g with base := some b } else g, ?_⟩
      unfold mergeBaseE
      rw [hg']
      show (do
          let bs' ← sizeE b
          let gbs' ← sizeE gb
          if bs' > gbs' then
            (Except.ok { g with base := some b } : Except Unit GameGroup)
          else Except.ok g)
        = Except.ok (if bs > gbs then { g with base := some b } else g)
      rw [hbs, hgbs]
      show (if bs > gbs then
            (Except.ok { g with base := some b } : Except Unit GameGroup)
          else Except.ok g)
        = Except.ok (if bs > gbs then { g with base := some b } else g)
      by_cases hc : bs > gbs
      · rw [if_pos hc, if_pos hc]
      · rw [if_neg hc, if_neg hc]

/-- One merge step never raises when every entry base has a readable
size, and keeps that invariant for the group base. -/
theorem mergeDirStep_ok {raw : List (String × RawEntry)} {g : GameGroup}
    {t : String}
    (hraw : ∀ t' b, (entryOf raw t').base = some b → b.size.isSome = true)
    (hg : ∀ b, g.base = some b → b.size.isSome = true) :
    ∃ g1, mergeDirStep raw g t = .ok g1 ∧
      ∀ b, g1.base = some b → b.size.isSome = true := by
  obtain ⟨gb, hgb⟩ := mergeBaseE_ok (hraw t) hg
  refine ⟨{ gb with updates := gb.updates ++ (entryOf raw t).updates, dlcs := gb.dlcs ++ (entryOf raw t).dlcs }, ?_, ?_⟩
  · unfold mergeDirStep
    rw [hgb]
  · intro b hb
    obtain ⟨_, _, _, hbase⟩ := mergeBaseE_parts hgb
    rcases hbase with h | h
    · exact hg b (by rw [← h]; exact hb)
    · exact hraw t b (by rw [← h]; exact hb)

/-- The merge fold never raises when every entry base has a readable
size. -/
theorem mergeFold_ok {raw : List (String × RawEntry)}
    (hraw : ∀ t' b, (entryOf raw t').base = some b → b.size.isSome = true) :
    ∀ (ts : List String) (g0 : GameGroup),
      (∀ b, g0.base = some b → b.size.isSome = true) →
      ∃ gr, ts.foldlM (mergeDirStep raw) g0 = .ok gr := by
  intro ts
  induction ts with
  | nil =>
    intro g0 _
    exact ⟨g0, rfl⟩
  | cons t rest ih =>
    intro g0 hg0
    obtain ⟨g1, hg1, hg1inv⟩ := mergeDirStep_ok hraw hg0
    obtain ⟨gr, hgr⟩ := ih g1 hg1inv
    refine ⟨gr, ?_⟩
    rw [List.foldlM_cons, hg1]
    exact hgr

/-- One directory-pass step never raises when every entry base has a
readable size and the id list is non-empty. -/
theorem dirStep_ok {raw : List (String × RawEntry)}
    (hraw : ∀ t' b, (entryOf raw t').base = some b → b.size.isSome = true)
    (gf : List (String × GameGroup)) (kv : String × List String)
    (hne : kv.2 ≠ []) :
    ∃ gf1, dirStep raw gf kv = .ok gf1 := by
  unfold dirStep
  cases hks : kv.2 with
  | nil => exact absurd hks hne
  | cons t rest =>
    cases rest with
    | nil => exact ⟨_, rfl⟩
    | cons t2 rest2 =>
      obtain ⟨gr, hgr⟩ := mergeFold_ok hraw (t :: t2 :: rest2)
        ⟨none, [], [], kv.1⟩ (fun b hb => by cases hb)
      refine ⟨setA gf ("DIR_" ++ kv.1) gr, ?_⟩
      show Except.bind (mergeDirTids raw kv.1 (t :: t2 :: rest2))
          (fun g => Except.ok (setA gf ("DIR_" ++ kv.1) g)) =
        Except.ok (setA gf ("DIR_" ++ kv.1) gr)
      rw [show mergeDirTids raw kv.1 (t :: t2 :: rest2) = Except.ok gr from hgr]
      rfl

/-- The directory pass never raises when the entry map has distinct keys
and every entry base has a readable size. -/
theorem dirPass_ok {raw : List (String × RawEntry)}
    (hk : (raw.map Prod.fst).Nodup)
    (hraw : ∀ t' b, (entryOf raw t').base = some b → b.size.isSome = true) :
    ∃ gf, dirPass raw = .ok gf := by
  have main : ∀ (ds : List (String × List String)),
      (∀ kv ∈ ds, (kv.2 : List String) ≠ []) →
      ∀ gf0, ∃ gf, ds.foldlM (dirStep raw) gf0 = .ok gf := by
    intro ds
    induction ds with
    | nil =>
      intro _ gf0
      exact ⟨gf0, rfl⟩
    | cons kv rest ih =>
      intro hne gf0
      obtain ⟨gf1, hgf1⟩ :=
        dirStep_ok hraw gf0 kv (hne kv (List.mem_cons_self kv rest))
      obtain ⟨gf, hgf⟩ :=
        ih (fun kv' hkv' => hne kv' (List.mem_cons_of_mem kv hkv')) gf1
      refine ⟨gf, ?_⟩
      rw [List.foldlM_cons, hgf1]
      exact hgf
  exact main (dirGroups raw) (fun kv hkv => (dirGroups_values hk kv hkv).2) []

/-- C8: the per-file loop's `try`/`except` really does recover
exceptions raised inside it — a file whose iteration raises appears in
no output group, the scan over the other files continues and the engine
never raises when every file's metadata is readable (so malformed names
alone cannot abort a scan).  The uncaught failure shown by
`c8_counterexample` is a metadata failure surfacing in the later
directory-merge phase, outside the loop's `try`. -/
theorem c8_theorem :
    (∀ (root : String) (l1 l2 : List RomFile) (g : RomFile)
        (out : List (String × GameGroup)),
      ((l1 ++ g :: l2).map RomFile.relParts).Nodup →
      (fileBody root (scanFold root l1) g).2 = true →
      scanDirectory root (l1 ++ g :: l2) = .ok out →
      ∀ kv ∈ out, g ∉ groupFiles kv.2) ∧
    (∀ (root : String) (files : List RomFile),
      (∀ f ∈ files, f.size.isSome = true) →
      ∃ out, scanDirectory root files = .ok out) := by
  constructor
  · intro root l1 l2 g out hnd herr hok kv hkv hg
    have hst := scanDirectory_stored hok kv hkv g hg
    have hmem := scanFold_skip root l1 l2 g herr g hst
    rw [List.map_append, List.map_cons, List.nodup_append] at hnd
    obtain ⟨h1, h2, hdisj⟩ := hnd
    rcases hmem with hgl | hgl
    · exact hdisj (List.mem_map.mpr ⟨g, hgl, rfl⟩)
        (List.mem_cons_self g.relParts (l2.map RomFile.relParts))
    · exact (List.nodup_cons.mp h2).1 (List.mem_map.mpr ⟨g, hgl, rfl⟩)
  · intro root files hsz
    have hinv := scanFold_inv root files ⟨[], []⟩ (by simp) (by simp)
      (fun kv hkv => absurd hkv (List.not_mem_nil kv))
    have hst : ∀ x ∈ storedFiles (scanFold root files).raw, x ∈ files := by
      intro x hx
      rcases scanFoldFrom_stored root files ⟨[], []⟩ x hx with h | h
      · exact h
      · simp [storedFiles] at h
    have hraw : ∀ t b, (entryOf (scanFold root files).raw t).base = some b →
        b.size.isSome = true := by
      intro t b hb
      apply hsz
      apply hst
      exact storedOf_entryOf_subset _ t b (mem_storedOf_of_base hb)
    obtain ⟨gf, hgf⟩ := dirPass_ok hinv.1 hraw
    replace hgf : dirPass (scanFold root files).raw = Except.ok gf := hgf
    refine ⟨basePass (scanFold root files).raw (scanFold root files).baseIdMap gf, ?_⟩
    simp only [scanDirectory]
    rw [hgf]

/-- Witness for C8: `c8wX` (unreadable size, directory `EE`) raises in
its loop iteration yet the scan of `[c8wP, c8wX]` succeeds with `c8wX`
in no group; and the scan of the readable `[c8wP]` alone succeeds. -/
theorem c8_witness :
    c8wX ∉ groupFiles ⟨some c8wP, [], [], "EE"⟩ ∧
    ∃ out, scanDirectory "rom" [c8wP] = .ok out := by
  constructor
  · exact c8_theorem.1 "rom" [c8wP] [] c8wX
      [("0100CCCCCCCC1000", ⟨some c8wP, [], [], "EE"⟩)]
      (by decide) rfl rfl
      ("0100CCCCCCCC1000", ⟨some c8wP, [], [], "EE"⟩)
      (List.mem_cons_self _ _)
  · exact c8_theorem.2 "rom" [c8wP]
      (by intro f hf; rw [List.mem_singleton.mp hf]; rfl)

/-- Witness for C7: the partless file `c7f` next to a normal file. -/
theorem c7_witness :
    fileBody "rom" ⟨[], []⟩ c7f = (⟨[], []⟩, false) ∧
    scanDirectory "rom" ([] ++ c7f :: [⟨["A", "a[0123456789ABCDEF].nsp"], some 1, 0⟩]) =
      scanDirectory "rom" ([] ++ [⟨["A", "a[0123456789ABCDEF].nsp"], some 1, 0⟩]) :=
  c7_theorem "rom" ⟨[], []⟩ [] [⟨["A", "a[0123456789ABCDEF].nsp"], some 1, 0⟩] c7f rfl rfl

end SRM
